import Mathlib

/-!
Verification of the dictlib library (src/dictlib/__init__.py) against its
natural-language specification.

The development has two layers:

* a pure value model (`Val`) of Python nested structures (scalars, lists,
  dicts, and `Dict` wrapper instances tagged by a flag), used for the
  path-resolver functions (`dig`, `dig_get`, `dug`, `_splice_index`), the
  in-place merge functions (`union`, `union_setadd`), and the wrapper
  construction / projection functions (`Dict.__init__`, `Dict.__original__`,
  attribute dispatch);

* an explicit heap model (`Heap`, addresses for mutable containers) used for
  the claims about aliasing and in-place mutation (`union_copy` /
  `_union_copy` / `copy.deepcopy`, and `export` / `original`).

Exceptions are modelled with `Except PyErr`.  Machine-level restrictions of
the model (shared below next to each definition): dict keys are strings or
natural numbers, digits are ASCII, structures are finite trees (Python
recursion on cyclic input would not terminate), and `copy.deepcopy`
memoization of shared substructure is not modelled (it is unobservable at
value level on tree-shaped input).
-/

namespace Dictlib

/-- Python exception kinds that the modelled code can raise.
`recursionCap` stands for exhausting the fuel of a fuel-indexed function
(Python would hit the recursion limit only on cyclic input, which the
tree-shaped model excludes); `notModelled` marks the explicitly excluded
corner of the model (deep-copying a `Dict` wrapper instance, and reverse-map
entries whose stored original key is not a string or int). -/
inductive PyErr where
  | keyError
  | indexError
  | typeError
  | attributeError
  | valueError
  | recursionCap
  | notModelled
deriving DecidableEq, Repr

/-- A Python dict key or path step: a string, or a non-negative integer
(the only key sorts produced and consumed by the library). -/
inductive Key where
  | s (str : String)
  | n (nat : Nat)
deriving DecidableEq, Repr

/-- A Python nested value: `None`, an int, a string, a list, or a dict.
The `isObj` flag on `dict` distinguishes instances of the `Dict` wrapper
class (a `dict` subclass) from plain dicts: `isinstance(v, dict)` is true
for both, `isinstance(v, Dict)` only when the flag is set.
Dict entries are an insertion-ordered association list; all operations keep
keys unique (as Python dicts do). -/
inductive Val where
  | null
  | int (i : Int)
  | str (s : String)
  | list (elems : List Val)
  | dict (isObj : Bool) (entries : List (Key × Val))

namespace Val

/-- Python truthiness of a value (`bool(v)`). -/
def truthy : Val → Bool
  | .null => false
  | .int i => i != 0
  | .str s => s != ""
  | .list l => !l.isEmpty
  | .dict _ es => !es.isEmpty

/-- `isinstance(v, dict)` (true for plain dicts and wrapper instances). -/
def isDict : Val → Bool
  | .dict _ _ => true
  | _ => false

/-- `isinstance(v, Dict)` (wrapper instances only). -/
def isObj : Val → Bool
  | .dict b _ => b
  | _ => false

/-- `isinstance(v, list)`. -/
def isList : Val → Bool
  | .list _ => true
  | _ => false

/-- A non-container value (`None`, int or string). -/
def isScalar : Val → Bool
  | .null => true
  | .int _ => true
  | .str _ => true
  | _ => false

end Val

/-- First-match association-list lookup, the model of `d[k]` for dicts
(keys are unique, so first match is the match). -/
def lookupKey {α : Type} (es : List (Key × α)) (k : Key) : Option α :=
  match es.find? (fun p => p.1 == k) with
  | some p => some p.2
  | none => none

/-- Dict entry assignment `d[k] = v`: overwrite the first entry with key `k`
in place (Python keeps the insertion position of an existing key), otherwise
append a new entry. -/
def setEntry {α : Type} (es : List (Key × α)) (k : Key) (v : α) : List (Key × α) :=
  match es with
  | [] => [(k, v)]
  | (k0, v0) :: rest =>
    if k0 == k then (k0, v) :: rest else (k0, v0) :: setEntry rest k v

/-- Dict entry deletion `del d[k]` (first entry with key `k`); `none` when
the key is absent (Python raises `KeyError`). -/
def delEntry {α : Type} (es : List (Key × α)) (k : Key) : Option (List (Key × α)) :=
  match es with
  | [] => none
  | (k0, v0) :: rest =>
    if k0 == k then some rest
    else match delEntry rest k with
      | some rest2 => some ((k0, v0) :: rest2)
      | none => none

/-- Python `==` between a key (str or int) and an arbitrary value, as used
by `in` on lists: equal only when sorts agree and contents agree. -/
def keyEqVal : Key → Val → Bool
  | .s a, .str b => a == b
  | .n a, .int b => (a : Int) == b
  | _, _ => false

mutual

/-- Structural (Lean-level) boolean equality on `Val`, used only to give
`Val` decidable equality; unlike `pyEq` below it distinguishes the wrapper
flag. -/
def valBeq : Val → Val → Bool
  | .null, .null => true
  | .int a, .int b => a == b
  | .str a, .str b => a == b
  | .list a, .list b => valBeqList a b
  | .dict x a, .dict y b => x == y && valBeqEntries a b
  | _, _ => false

/-- Pointwise `valBeq` on lists. -/
def valBeqList : List Val → List Val → Bool
  | [], [] => true
  | x :: xs, y :: ys => valBeq x y && valBeqList xs ys
  | _, _ => false

/-- Pointwise `valBeq` on entry lists. -/
def valBeqEntries : List (Key × Val) → List (Key × Val) → Bool
  | [], [] => true
  | (k, v) :: xs, (k2, w) :: ys => k == k2 && valBeq v w && valBeqEntries xs ys
  | _, _ => false

end

mutual

def valBeq_eq : ∀ (a b : Val), valBeq a b = true ↔ a = b
  | .null, b => by cases b <;> simp [valBeq]
  | .int i, b => by cases b <;> simp [valBeq]
  | .str s, b => by cases b <;> simp [valBeq]
  | .list xs, b => by
    cases b <;> simp [valBeq]
    exact valBeqList_eq xs _
  | .dict f xs, b => by
    cases b <;> simp [valBeq]
    intro _
    exact valBeqEntries_eq xs _

def valBeqList_eq : ∀ (a b : List Val), valBeqList a b = true ↔ a = b
  | [], b => by cases b <;> simp [valBeqList]
  | x :: xs, [] => by simp [valBeqList]
  | x :: xs, y :: ys => by
    simp [valBeqList, valBeq_eq x y, valBeqList_eq xs ys]

def valBeqEntries_eq : ∀ (a b : List (Key × Val)), valBeqEntries a b = true ↔ a = b
  | [], b => by cases b <;> simp [valBeqEntries]
  | (k, v) :: xs, [] => by simp [valBeqEntries]
  | (k, v) :: xs, (k2, w) :: ys => by
    simp [valBeqEntries, valBeq_eq v w, valBeqEntries_eq xs ys, Prod.ext_iff,
      and_assoc]

end

instance : DecidableEq Val := fun a b => decidable_of_iff _ (valBeq_eq a b)

deriving instance DecidableEq for Except

mutual

/-- A computable structural size of a value, used only to compute fuel for
the fuel-indexed functions below. -/
def valSize : Val → Nat
  | .null => 1
  | .int _ => 1
  | .str _ => 1
  | .list l => 1 + valSizeList l
  | .dict _ es => 1 + valSizeEntries es

/-- Size of a list of values. -/
def valSizeList : List Val → Nat
  | [] => 1
  | x :: xs => 1 + valSize x + valSizeList xs

/-- Size of an entry list. -/
def valSizeEntries : List (Key × Val) → Nat
  | [] => 1
  | (_, v) :: xs => 1 + valSize v + valSizeEntries xs

end

mutual

/-- Python structural equality `==` on values.  Mirrors CPython: ints and
strings by content, lists pointwise, dicts by same length and same
key-to-equal-value mapping, ignoring the dict subclass (a `Dict` wrapper
equals a plain dict with the same entries); values of different sorts are
unequal. -/
def pyEq : Val → Val → Bool
  | .null, .null => true
  | .int a, .int b => a == b
  | .str a, .str b => a == b
  | .list a, .list b => pyEqList a b
  | .dict _ a, .dict _ b => a.length == b.length && pyEqEntries a b
  | _, _ => false

/-- Pointwise Python `==` on lists (false on a length mismatch). -/
def pyEqList : List Val → List Val → Bool
  | [], [] => true
  | x :: xs, y :: ys => pyEq x y && pyEqList xs ys
  | _, _ => false

/-- One direction of Python dict `==`: every entry of the first list maps
to an equal value in the second (with equal lengths and unique keys this
gives dict equality). -/
def pyEqEntries : List (Key × Val) → List (Key × Val) → Bool
  | [], _ => true
  | (k, v) :: rest, b =>
    (match lookupKey b k with
     | some w => pyEq v w
     | none => false) && pyEqEntries rest b

end

/-- The model of Python subscripting `obj[k]`: dict key lookup
(`KeyError` when absent), list indexing (`IndexError` out of range,
`TypeError` for a string subscript), string indexing (a one-character
string), `TypeError` on everything else (ints, `None`). -/
def getItem : Val → Key → Except PyErr Val
  | .dict _ es, k =>
    match lookupKey es k with
    | some v => .ok v
    | none => .error .keyError
  | .list l, .n i =>
    match l.get? i with
    | some v => .ok v
    | none => .error .indexError
  | .list _, .s _ => .error .typeError
  | .str s, .n i =>
    match s.data.get? i with
    | some c => .ok (.str (String.mk [c]))
    | none => .error .indexError
  | .str _, .s _ => .error .typeError
  | _, _ => .error .typeError

/-- The model of Python subscript assignment `obj[k] = v`: dict entry
assignment always succeeds; list index assignment requires the index in
range (`IndexError` otherwise, `TypeError` for a string subscript);
strings and scalars do not support item assignment (`TypeError`). -/
def setItem : Val → Key → Val → Except PyErr Val
  | .dict b es, k, v => .ok (.dict b (setEntry es k v))
  | .list l, .n i, v =>
    if i < l.length then .ok (.list (l.set i v)) else .error .indexError
  | .list _, .s _, _ => .error .typeError
  | _, _, _ => .error .typeError

/-- The model of Python `k in obj`: key membership for dicts, element
membership (by `==`) for lists, substring test for strings with a string
operand (`TypeError` with an int operand), `TypeError` on scalars. -/
def containsV : Val → Key → Except PyErr Bool
  | .dict _ es, k => .ok (es.any (fun p => p.1 == k))
  | .list l, k => .ok (l.any (fun e => keyEqVal k e))
  | .str s, .s t => .ok (decide (t.data <:+: s.data))
  | .str _, .n _ => .error .typeError
  | _, _ => .error .typeError

/-- First code points of the ten-character decimal-digit blocks of Unicode
category `Nd` (Unicode 12.1, the table of CPython 3.8): Python re `\d` on
a str pattern matches exactly these characters, and `int` accepts them. -/
def ndStarts : List Nat :=
  [48, 0x660, 0x6F0, 0x7C0, 0x966, 0x9E6, 0xA66, 0xAE6, 0xB66, 0xBE6,
   0xC66, 0xCE6, 0xD66, 0xDE6, 0xE50, 0xED0, 0xF20, 0x1040, 0x1090, 0x17E0,
   0x1810, 0x1946, 0x19D0, 0x1A80, 0x1A90, 0x1B50, 0x1BB0, 0x1C40, 0x1C50,
   0xA620, 0xA8D0, 0xA900, 0xA9D0, 0xA9F0, 0xAA50, 0xABF0, 0xFF10,
   0x104A0, 0x10D30, 0x11066, 0x110F0, 0x11136, 0x111D0, 0x112F0, 0x11450,
   0x114D0, 0x11650, 0x116C0, 0x11730, 0x118E0, 0x11C50, 0x11D50, 0x11DA0,
   0x16A60, 0x16B50, 0x1D7CE, 0x1D7D8, 0x1D7E2, 0x1D7EC, 0x1D7F6,
   0x1E140, 0x1E2F0, 0x1E950]

/-- Whether a character is matched by Python re `\d` (Unicode decimal
digit). -/
def isReDigit (c : Char) : Bool :=
  ndStarts.any (fun s => decide (s ≤ c.toNat) && decide (c.toNat < s + 10))

/-- Decimal value of a Unicode decimal digit (its offset in its block). -/
def reDigitVal (c : Char) : Nat :=
  match ndStarts.find? (fun s => decide (s ≤ c.toNat) && decide (c.toNat < s + 10)) with
  | some s => c.toNat - s
  | none => 0

/-- Numeric value of a digit string (the model of Python `int` on the
digits captured by the regex; `int` accepts every `Nd` digit by its
decimal value). -/
def digitsToNat (ds : List Char) : Nat :=
  ds.foldl (fun a c => a * 10 + reDigitVal c) 0

/-- Core of the regex model on a character list `t` in which `$` has
already been resolved to the very end: the pattern `(.*)\[(\d+)\]$`
matches iff `t` ends in a bracketed non-empty digit run, and since the
bracket group is pinned at the end, the only freedom is the start of the
match; the leftmost start is the position right after the last newline
before the bracket (`.` cannot cross a newline), so group 1 is the
newline-free segment immediately before the bracket. -/
def rxIndexAux (t : List Char) : Option (String × Nat) :=
  match t.reverse with
  | ']' :: rest =>
    let ds := rest.takeWhile isReDigit
    let rem := rest.dropWhile isReDigit
    if ds.isEmpty then Option.none
    else
      match rem with
      | '[' :: pre =>
        some (String.mk (pre.takeWhile (fun c => !(c == '\n'))).reverse,
          digitsToNat ds.reverse)
      | _ => Option.none
  | _ => Option.none

/-- The model of `RX_INDEX.search(s)` for the source regex
`(.*)\[(\d+)\]$`: `$` matches at the end of the string or just before one
trailing newline, so at most one final newline is ignored; the rest is
`rxIndexAux`. -/
def rxIndex (s : String) : Option (String × Nat) :=
  if s.data.getLast? = some '\n' then rxIndexAux s.data.dropLast
  else rxIndexAux s.data

/-- The model of `_splice_index`: when the first element of the step list is
a string matched by `RX_INDEX`, replace it by the captured name followed by
the numeric index; all remaining elements are untouched.  (The source raises
`IndexError` on an empty argument tuple, which the callers never produce;
the model returns `[]` there and the callers map `[]` to that error.) -/
def spliceIndex : List Key → List Key
  | .s s :: rest =>
    match rxIndex s with
    | some (name, i) => .s name :: .n i :: rest
    | none => .s s :: rest
  | ks => ks

/-- Termination measure for the step-consuming recursions (`_dig`,
`_dig_get`, `_dug`): splicing can grow the list by one, but the spliced
head is consumed immediately and an int step never splices. -/
def pathMeasure : List Key → Nat
  | [] => 0
  | .s s :: rest => 2 * (rest.length + 1) + (if (rxIndex s).isSome then 1 else 0)
  | .n _ :: rest => 2 * (rest.length + 1)

/-- The model of Python `key.split(".")`: split the character list on
every dot, keeping empty segments (structural, so that it evaluates inside
the kernel, unlike `String.splitOn`). -/
def splitDotAux : List Char → List Char → List String
  | [], acc => [String.mk acc.reverse]
  | c :: rest, acc =>
    if c = '.' then String.mk acc.reverse :: splitDotAux rest []
    else splitDotAux rest (c :: acc)

/-- Split a dotted path into its segments. -/
def splitDot (s : String) : List String :=
  splitDotAux s.data []

/-- The model of `_dig`: splice the first step, then either return the
single-step lookup or descend and recurse.  An empty step list is the
`IndexError` the source raises from `key[0]`.  The fuel argument makes the
recursion structural; the entry points supply fuel strictly above
`pathMeasure`, which `spliceIndex_tail_lt` shows never runs out. -/
def digAux : Nat → Val → List Key → Except PyErr Val
  | 0, _, _ => .error .recursionCap
  | fuel + 1, obj, ks =>
    match spliceIndex ks with
    | [] => .error .indexError
    | [k] => getItem obj k
    | k :: k2 :: rest =>
      match getItem obj k with
      | .ok child => digAux fuel child (k2 :: rest)
      | .error e => .error e

/-- The model of `dig`: split the dotted path on `.` and run `_dig`. -/
def dig (obj : Val) (key : String) : Except PyErr Val :=
  let ks := (splitDot key).map Key.s
  digAux (2 * ks.length + 2) obj ks

/-- The model of `_dig_get_elem`: subscript, turning `IndexError` and
`KeyError` into the default; other exceptions propagate. -/
def digGetElem (obj : Val) (k : Key) (dflt : Val) : Except PyErr Val :=
  match getItem obj k with
  | .ok v => .ok v
  | .error .indexError => .ok dflt
  | .error .keyError => .ok dflt
  | .error e => .error e

/-- The model of `_dig_get`: splice, short-circuit to the default on a
falsy current object, then look up one step (defaulting on missing
key/index) and recurse.  Note the recursion descends into the default
itself when a step was missing. -/
def digGetAux : Nat → Val → Val → List Key → Except PyErr Val
  | 0, _, _, _ => .error .recursionCap
  | fuel + 1, obj, dflt, ks =>
    match spliceIndex ks with
    | [] => .error .indexError
    | [k] =>
      if !obj.truthy then .ok dflt
      else digGetElem obj k dflt
    | k :: k2 :: rest =>
      if !obj.truthy then .ok dflt
      else
        match digGetElem obj k dflt with
        | .ok child => digGetAux fuel child dflt (k2 :: rest)
        | .error e => .error e

/-- The model of `dig_get`: the optional vararg default collapses to its
first element or `None`; `KeyError` and `AttributeError` escaping
`_dig_get` are converted to the default, all other exceptions propagate. -/
def dig_get (obj : Val) (key : String) (dflt : List Val) : Except PyErr Val :=
  let d := match dflt with
    | d :: _ => d
    | [] => .null
  let ks := (splitDot key).map Key.s
  match digGetAux (2 * ks.length + 2) obj d ks with
  | .ok v => .ok v
  | .error .keyError => .ok d
  | .error .attributeError => .ok d
  | .error e => .error e

/-- The model of `_dug`: splice; at the last step assign and return `True`;
otherwise create an empty plain dict at the step when the step is not `in`
the current object (key membership for dicts, element membership for
lists), then descend and recurse.  The returned `Bool` is the Python return
value, the returned `Val` the updated structure. -/
def dugAux : Nat → Val → Val → List Key → Except PyErr (Val × Bool)
  | 0, _, _, _ => .error .recursionCap
  | fuel + 1, obj, value, ks =>
    match spliceIndex ks with
    | [] => .error .indexError
    | [k] =>
      match setItem obj k value with
      | .ok obj2 => .ok (obj2, true)
      | .error e => .error e
    | k :: k2 :: rest =>
      match containsV obj k with
      | .error e => .error e
      | .ok m =>
        match (if m then .ok obj else setItem obj k (.dict false [])) with
        | .error e => .error e
        | .ok obj1 =>
          match getItem obj1 k with
          | .error e => .error e
          | .ok child =>
            match dugAux fuel child value (k2 :: rest) with
            | .error e => .error e
            | .ok (child2, b) =>
              match setItem obj1 k child2 with
              | .error e => .error e
              | .ok obj2 => .ok (obj2, b)

/-- The model of `dug`: split the dotted path on `.` and run `_dug`. -/
def dug (obj : Val) (key : String) (value : Val) : Except PyErr (Val × Bool) :=
  let ks := (splitDot key).map Key.s
  dugAux (2 * ks.length + 2) obj value ks

mutual

/-- The model of `union`: iterate the entries of `dict2`; when the key is
already `in` `dict1` and the source value is a mapping, recurse into
`dict1[key]` (whatever it holds); otherwise install the source value.
`dict2.items()` on a non-dict raises `AttributeError`.  The returned value
is the mutated `dict1`. -/
def union : Val → Val → Except PyErr Val
  | d1, .dict _ es => unionItems d1 es
  | _, _ => .error .attributeError

/-- The entry loop of `union`, threading the mutated target. -/
def unionItems : Val → List (Key × Val) → Except PyErr Val
  | d1, [] => .ok d1
  | d1, (k, v) :: rest =>
    match containsV d1 k with
    | .error e => .error e
    | .ok c =>
      match
        (if c && v.isDict then
          match getItem d1 k with
          | .error e => .error e
          | .ok sub =>
            match union sub v with
            | .error e => .error e
            | .ok merged => setItem d1 k merged
        else setItem d1 k v) with
      | .error e => .error e
      | .ok d1' => unionItems d1' rest

end

/-- The scalar set-add loop of `union_setadd`: append each source element
that is not (by Python `==`) already in the accumulated target list. -/
def setaddLoop (xs ys : List Val) : List Val :=
  ys.foldl (fun acc e => if acc.any (fun x => pyEq x e) then acc else acc ++ [e]) xs

/-- Specification-side characterization of the scalar set-add loop: the
elements of `ys`, in order, that are not already (by Python `==`) in the
target list extended with the elements appended so far.  `setaddLoop xs ys`
equals `xs ++ appendMissing xs ys` (proved below), which is the
specification reading "append exactly the source elements not already
present, in source order, keeping the target prefix". -/
def appendMissing (xs ys : List Val) : List Val :=
  match ys with
  | [] => []
  | y :: rest =>
    if xs.any (fun x => pyEq x y) then appendMissing xs rest
    else y :: appendMissing (xs ++ [y]) rest

mutual

/-- The model of `union_setadd`: like `union` for mappings and fresh keys;
for a shared key whose source value is a list, require the target value to
be a list (`TypeError` otherwise), skip an empty source list, merge
positionally when the first source element is a dict, and otherwise append
source elements not already present.  All other shared-key values are
replaced. -/
def union_setadd : Val → Val → Except PyErr Val
  | d1, .dict _ es => usItems d1 es
  | _, _ => .error .attributeError

/-- The entry loop of `union_setadd`, threading the mutated target. -/
def usItems : Val → List (Key × Val) → Except PyErr Val
  | d1, [] => .ok d1
  | d1, (k, v2) :: rest =>
    match containsV d1 k with
    | .error e => .error e
    | .ok c =>
      match
        (if c then
          if v2.isDict then
            match getItem d1 k with
            | .error e => .error e
            | .ok sub =>
              match union_setadd sub v2 with
              | .error e => .error e
              | .ok merged => setItem d1 k merged
          else
            match v2 with
            | .list ys =>
              (match getItem d1 k with
              | .error e => .error e
              | .ok v1 =>
                match v1 with
                | .list xs =>
                  if ys.isEmpty then .ok d1
                  else
                    match ys with
                    | y :: _ =>
                      if y.isDict then
                        match usListPos xs ys with
                        | .error e => .error e
                        | .ok merged => setItem d1 k (.list merged)
                      else setItem d1 k (.list (setaddLoop xs ys))
                    | [] => .ok d1
                | _ => .error .typeError)
            | _ => setItem d1 k v2
        else setItem d1 k v2) with
      | .error e => .error e
      | .ok d1' => usItems d1' rest

/-- The positional list merge of `union_setadd` (both element runs are
assumed dicts by the source): merge index by index, appending the extra
source elements beyond the target length. -/
def usListPos : List Val → List Val → Except PyErr (List Val)
  | xs, [] => .ok xs
  | x :: xs, y :: ys =>
    match union_setadd x y with
    | .error e => .error e
    | .ok m =>
      match usListPos xs ys with
      | .error e => .error e
      | .ok rest => .ok (m :: rest)
  | [], y :: ys =>
    match usListPos [] ys with
    | .error e => .error e
    | .ok rest => .ok (y :: rest)

end

/-- The reserved internal key marker `\f$\f` (form-feed, dollar,
form-feed). -/
def rsvdPfx : String := String.mk [Char.ofNat 12, '$', Char.ofNat 12]

/-- Key sanitization: replace every character outside `[A-Za-z0-9_]` by an
underscore (the model of `re.sub` with that class; the class is ASCII). -/
def sanitize (s : String) : String :=
  String.mk (s.data.map fun c => if c.isAlpha || c.isDigit || c == '_' then c else '_')

/-- The reserved-word set of the wrapper: `set(dir(dict))` (CPython) plus
the names listed in the source.  `dir(dict)` is interpreter-version
dependent; this is the CPython 3.8 listing. -/
def reservedWords : List String :=
  ["__class__", "__contains__", "__delattr__", "__delitem__", "__dir__",
   "__doc__", "__eq__", "__format__", "__ge__", "__getattribute__",
   "__getitem__", "__gt__", "__hash__", "__init__", "__init_subclass__",
   "__iter__", "__le__", "__len__", "__lt__", "__ne__", "__new__",
   "__reduce__", "__reduce_ex__", "__repr__", "__reversed__",
   "__setattr__", "__setitem__", "__sizeof__", "__str__",
   "__subclasshook__", "clear", "copy", "fromkeys", "get", "items",
   "keys", "pop", "popitem", "setdefault", "update", "values",
   "dict", "__export__", "union", "__reserved__"]

mutual

/-- The model of `Dict.__init__` on an entry list (the items of the input
mapping or keyword dict): reject keys that are not strings (`key[:3]` on a
non-string raises `TypeError`), keys starting with the reserved marker
(`ValueError`), and sanitized keys in the reserved-word set (`ValueError`);
recursively wrap mapping values via `Obj(**value)`; store under the
sanitized key, and when sanitization changed the key also store the
reverse-mapping entry and the original key.  Returns the wrapper value.
The fuel argument (decremented on every recursive call) makes the
recursion structural; the callers supply enough for the input at hand. -/
def dictInitF : Nat → List (Key × Val) → Except PyErr Val
  | 0, _ => .error .recursionCap
  | fuel + 1, attrs =>
    match dictInitLoop fuel attrs [] with
    | .error e => .error e
    | .ok self => .ok (.dict true self)

/-- The per-key loop of `Dict.__init__`, accumulating the entries of
`self` in insertion order. -/
def dictInitLoop : Nat → List (Key × Val) → List (Key × Val) → Except PyErr (List (Key × Val))
  | 0, _, _ => .error .recursionCap
  | _ + 1, [], self => .ok self
  | fuel + 1, (k, v) :: rest, self =>
    match k with
    | .n _ => .error .typeError
    | .s key =>
      if String.mk (key.data.take 3) == rsvdPfx then .error .valueError
      else
        let newkey := sanitize key
        if reservedWords.contains newkey then .error .valueError
        else
          match
            (match v with
            | .dict _ es2 => dictInitF fuel es2
            | _ => .ok v) with
          | .error e => .error e
          | .ok v2 =>
            let self1 := setEntry self (.s newkey) v2
            let self2 :=
              if newkey == key then self1
              else setEntry (setEntry self1 (.s (rsvdPfx ++ newkey)) (.str key)) (.s key) v2
            dictInitLoop fuel rest self2

end

/-- `Dict.__init__` with fuel that dominates the recursion depth (one
unit per entry and per nesting level, bounded by the structural size). -/
def dictInit (attrs : List (Key × Val)) : Except PyErr Val :=
  dictInitF (valSizeEntries attrs + 1) attrs

/-- Conversion of a stored reverse-mapping value back into a dict key, for
`exported[rewrite[key]]`: construction always stores the original key
string there, so a string becomes a string key; an int a numeric key
(Python would accept a negative int as a key, which `Key` cannot express);
anything else is outside the model (Python would raise `TypeError` for the
unhashable ones). -/
def valToKey : Val → Except PyErr Key
  | .str s => .ok (.s s)
  | .int i => if i < 0 then .error .notModelled else .ok (.n i.toNat)
  | _ => .error .notModelled

/-- Second pass of `__original__`: for each reverse-map entry, assign the
value at the sanitized key to the original key and delete the sanitized
entry (`KeyError` when the sanitized key is absent, as in the source). -/
def objOriginalRewrite : List (Key × Val) → List (Key × Val) →
    Except PyErr (List (Key × Val))
  | [], exported => .ok exported
  | (sk, ov) :: rest, exported =>
    match lookupKey exported sk with
    | none => .error .keyError
    | some value =>
      match valToKey ov with
      | .error e => .error e
      | .ok origKey =>
        match delEntry (setEntry exported origKey value) sk with
        | none => .error .keyError
        | some exported2 => objOriginalRewrite rest exported2

mutual

/-- The model of `Dict.__original__`: first pass splits the stored entries
into the reverse map (`rewrite`, keyed by the sanitized name without the
marker) and the exported dict (recursing into wrapper values); second pass
copies each sanitized-key value to the original key and deletes the
sanitized-key entry.  Fuel as in `dictInitF`. -/
def objOriginalF : Nat → Val → Except PyErr Val
  | 0, _ => .error .recursionCap
  | fuel + 1, v =>
    match v with
    | .dict _ es =>
      (match objOriginalSplit fuel es [] [] with
      | .error e => .error e
      | .ok (rewrite, exported) =>
        match objOriginalRewrite rewrite exported with
        | .error e => .error e
        | .ok final => .ok (.dict false final))
    | _ => .error .attributeError

/-- First pass of `__original__` over the stored entries. -/
def objOriginalSplit : Nat → List (Key × Val) → List (Key × Val) → List (Key × Val) →
    Except PyErr (List (Key × Val) × List (Key × Val))
  | 0, _, _, _ => .error .recursionCap
  | _ + 1, [], rewrite, exported => .ok (rewrite, exported)
  | fuel + 1, (k, v) :: rest, rewrite, exported =>
    match k with
    | .n _ => .error .typeError
    | .s key =>
      if String.mk (key.data.take 3) == rsvdPfx then
        objOriginalSplit fuel rest (setEntry rewrite (.s (String.mk (key.data.drop 3))) v) exported
      else
        match (if v.isObj then objOriginalF fuel v else .ok v) with
        | .error e => .error e
        | .ok v2 => objOriginalSplit fuel rest rewrite (setEntry exported (.s key) v2)

end

/-- `Dict.__original__` with fuel that dominates the recursion depth. -/
def objOriginal (v : Val) : Except PyErr Val :=
  objOriginalF (valSize v + 1) v

/-- The attributes found on the `Dict` class itself (methods and class
fields, CPython 3.8 listing): attribute lookup finds these before
`__getattr__` is consulted, so `d.keys` is the bound method, never a
`KeyError`. -/
def dictClassAttrs : List String :=
  ["__class__", "__contains__", "__deepcopy__", "__delattr__",
   "__delitem__", "__dict__", "__dir__", "__doc__", "__eq__",
   "__export__", "__format__", "__ge__", "__getattr__",
   "__getattribute__", "__getitem__", "__gt__", "__hash__", "__init__",
   "__init_subclass__", "__iter__", "__le__", "__len__", "__lt__",
   "__module__", "__ne__", "__new__", "__original__", "__reduce__",
   "__reduce_ex__", "__repr__", "__reserved__", "__reversed__",
   "__setattr__", "__setitem__", "__sizeof__", "__str__",
   "__subclasshook__", "__weakref__", "clear", "copy", "fromkeys",
   "get", "items", "keys", "pop", "popitem", "setdefault", "update",
   "values"]

/-- The model of attribute access `d.name` on a wrapper with stored
entries `es`: Python finds class attributes (methods etc.) first —
modelled as `.ok none` (an attribute that is not a data entry); only then
is `__getattr__ = dict.__getitem__` consulted, which raises `KeyError`
for a missing key.  No path raises `AttributeError`. -/
def objGetAttr (es : List (Key × Val)) (name : String) : Except PyErr (Option Val) :=
  if dictClassAttrs.contains name then .ok Option.none
  else
    match lookupKey es (.s name) with
    | some v => .ok (some v)
    | none => .error .keyError

/-! ## Heap model

The claims about aliasing and in-place mutation (`union_copy` never touches
its inputs and shares nothing with them; `export`/`original` mutate their
argument and return it) are about object identity, which the value model
cannot express.  This section models the mutable containers explicitly:
a heap maps addresses to container cells; immutable values (ints, strings,
`None`) are inline atoms, exactly as CPython treats them for `deepcopy`. -/

/-- An immutable Python value (returned as-is by `copy.deepcopy`). -/
inductive Atom where
  | anull
  | aint (i : Int)
  | astr (s : String)
deriving DecidableEq, Repr

/-- A heap value: an immutable atom or a reference to a container cell. -/
inductive HVal where
  | atom (a : Atom)
  | ref (addr : Nat)
deriving DecidableEq, Repr

/-- A mutable container cell: a list of values, or a dict (the `isObj`
flag marks `Dict` wrapper instances, as in the value model). -/
inductive Cell where
  | clist (elems : List HVal)
  | cdict (isObj : Bool) (entries : List (Key × HVal))
deriving DecidableEq, Repr

/-- The heap: a store from addresses to cells plus the next fresh
address.  All live addresses are below `next` (`Heap.WF`). -/
structure Heap where
  store : Nat → Option Cell
  next : Nat

/-- Overwrite the cell at an existing address (in-place mutation). -/
def Heap.write (h : Heap) (a : Nat) (c : Cell) : Heap :=
  ⟨fun b => if b = a then some c else h.store b, h.next⟩

/-- Allocate a fresh cell, returning its address. -/
def Heap.alloc (h : Heap) (c : Cell) : Nat × Heap :=
  (h.next, ⟨fun b => if b = h.next then some c else h.store b, h.next + 1⟩)

/-- A convenient closed heap: cell `i` of the list lives at address `i`. -/
def Heap.ofCells (cs : List Cell) : Heap :=
  ⟨fun a => cs.get? a, cs.length⟩

/-- The addresses a heap value mentions directly. -/
def HVal.addrs : HVal → List Nat
  | .atom _ => []
  | .ref a => [a]

/-- The addresses a cell mentions directly. -/
def Cell.addrs : Cell → List Nat
  | .clist l => (l.map HVal.addrs).flatten
  | .cdict _ es => (es.map (fun p => p.2.addrs)).flatten

/-- Heap well-formedness: every live address and every address stored in a
live cell is below `next`. -/
structure Heap.WF (h : Heap) : Prop where
  dom_lt : ∀ a c, h.store a = some c → a < h.next
  closed : ∀ a c, h.store a = some c → ∀ b ∈ c.addrs, b < h.next

/-- Reachability of an address from a root value through the heap: the
formal reading of "value reachable from" and "shares mutable state with"
in the specification. -/
inductive Reaches (h : Heap) (root : HVal) : Nat → Prop where
  | base {a : Nat} : a ∈ root.addrs → Reaches h root a
  | step {a b : Nat} {c : Cell} :
      Reaches h root a → h.store a = some c → b ∈ c.addrs → Reaches h root b

/-- `isinstance(v, dict)` in the heap model. -/
def isDictH (h : Heap) : HVal → Bool
  | .atom _ => false
  | .ref a =>
    match h.store a with
    | some (.cdict _ _) => true
    | _ => false

/-- `isinstance(v, Dict)` in the heap model (wrapper instances only). -/
def isObjH (h : Heap) : HVal → Bool
  | .atom _ => false
  | .ref a =>
    match h.store a with
    | some (.cdict true _) => true
    | _ => false

/-- Subscripting `obj[k]` in the heap model (same Python semantics as the
value-model `getItem`).  A dangling reference is outside the model. -/
def getItemH (h : Heap) : HVal → Key → Except PyErr HVal
  | .atom (.astr s), .n i =>
    match s.data.get? i with
    | some c => .ok (.atom (.astr (String.mk [c])))
    | none => .error .indexError
  | .atom _, _ => .error .typeError
  | .ref a, k =>
    match h.store a with
    | some (.cdict _ es) =>
      match lookupKey es k with
      | some v => .ok v
      | none => .error .keyError
    | some (.clist l) =>
      match k with
      | .n i =>
        match l.get? i with
        | some v => .ok v
        | none => .error .indexError
      | .s _ => .error .typeError
    | none => .error .notModelled

/-- Membership `k in obj` in the heap model: a reference compared against
a string/int key is never equal. -/
def keyEqHVal : Key → HVal → Bool
  | .s a, .atom (.astr b) => a == b
  | .n a, .atom (.aint b) => (a : Int) == b
  | _, _ => false

/-- `k in obj` in the heap model (same Python semantics as `containsV`). -/
def containsH (h : Heap) : HVal → Key → Except PyErr Bool
  | .atom (.astr s), .s t => .ok (decide (t.data <:+: s.data))
  | .atom _, _ => .error .typeError
  | .ref a, k =>
    match h.store a with
    | some (.cdict _ es) => .ok (es.any (fun p => p.1 == k))
    | some (.clist l) => .ok (l.any (fun e => keyEqHVal k e))
    | none => .error .notModelled

/-- Subscript assignment `obj[k] = v` in the heap model: mutates the cell
at the target address. -/
def setItemH (h : Heap) : HVal → Key → HVal → Except PyErr Heap
  | .atom _, _, _ => .error .typeError
  | .ref a, k, v =>
    match h.store a with
    | some (.cdict b es) => .ok (h.write a (.cdict b (setEntry es k v)))
    | some (.clist l) =>
      match k with
      | .n i =>
        if i < l.length then .ok (h.write a (.clist (l.set i v)))
        else .error .indexError
      | .s _ => .error .typeError
    | none => .error .notModelled

/-- Conversion of a stored reverse-mapping value into a dict key in the
heap model (see `valToKey`). -/
def valToKeyH : HVal → Except PyErr Key
  | .atom (.astr s) => .ok (.s s)
  | .atom (.aint i) => if i < 0 then .error .notModelled else .ok (.n i.toNat)
  | .atom .anull => .error .notModelled
  | .ref _ => .error .typeError

/-- Transient values of the `Dict.__original__` result while it is
consumed by `Obj(**...)` inside `Dict.__deepcopy__`: the projection of a
wrapper child is a fresh Python dict that exists only between the two
calls (`tdict`); every other value — scalars, lists and plain dict cells
included — is passed through by reference (`hv`). -/
inductive TVal where
  | hv (v : HVal)
  | tdict (es : List (Key × TVal))

/-- Second pass of `__original__` on the transient entries (the same
assign-then-delete rewrite as `origRewriteH`). -/
def dcRewrite : List (Key × HVal) → List (Key × TVal) → Except PyErr (List (Key × TVal))
  | [], exported => .ok exported
  | (sk, ov) :: rest, exported =>
    match lookupKey exported sk with
    | Option.none => .error .keyError
    | some value =>
      match valToKeyH ov with
      | .error e => .error e
      | .ok origKey =>
        match delEntry (setEntry exported origKey value) sk with
        | Option.none => .error .keyError
        | some exported2 => dcRewrite rest exported2

mutual

/-- `Dict.__original__` as used by `Dict.__deepcopy__`: produce the
transient entry list (wrapper children recursively projected; every other
value, lists and plain dict cells included, passed through by reference),
then apply the rewrite pass.  No heap cell is written or allocated. -/
def dcOrigF : Nat → Heap → List (Key × HVal) → Except PyErr (List (Key × TVal))
  | 0, _, _ => .error .recursionCap
  | fuel + 1, h, es =>
    match dcOrigSplit fuel h es [] [] with
    | .error e => .error e
    | .ok (rewrite, exported) => dcRewrite rewrite exported

/-- First pass of the transient `__original__` over the stored entries. -/
def dcOrigSplit : Nat → Heap → List (Key × HVal) → List (Key × HVal) → List (Key × TVal) →
    Except PyErr (List (Key × HVal) × List (Key × TVal))
  | 0, _, _, _, _ => .error .recursionCap
  | _ + 1, _, [], rewrite, exported => .ok (rewrite, exported)
  | fuel + 1, h, (k, v) :: rest, rewrite, exported =>
    match k with
    | .n _ => .error .typeError
    | .s key =>
      if String.mk (key.data.take 3) == rsvdPfx then
        dcOrigSplit fuel h rest (setEntry rewrite (.s (String.mk (key.data.drop 3))) v) exported
      else
        match
          ((match v with
           | .ref a =>
             match h.store a with
             | some (.cdict true es2) =>
               (match dcOrigF fuel h es2 with
                | .error e => .error e
                | .ok tes => .ok (TVal.tdict tes))
             | some _ => .ok (TVal.hv v)
             | Option.none => .error .notModelled
           | .atom _ => .ok (TVal.hv v)) : Except PyErr TVal) with
        | .error e => .error e
        | .ok tv => dcOrigSplit fuel h rest rewrite (setEntry exported (.s key) tv)

end

mutual

/-- The model of `Obj(**attrs)` as called by `Dict.__deepcopy__`, on the
transient entry list: the per-key checks and stores of `Dict.__init__`
(see `dictInitLoop`), with mapping values — transient dicts and heap dict
cells alike — wrapped into fresh wrapper cells, and every other value
(lists in particular) stored by reference. -/
def dcWrapF : Nat → Heap → List (Key × TVal) → Except PyErr (Nat × Heap)
  | 0, _, _ => .error .recursionCap
  | fuel + 1, h, attrs =>
    match dcWrapLoop fuel h attrs [] with
    | .error e => .error e
    | .ok (self, h2) => .ok (h2.alloc (.cdict true self))

/-- The per-key loop of the wrapper construction, threading the heap and
accumulating the entries of `self` in insertion order. -/
def dcWrapLoop : Nat → Heap → List (Key × TVal) → List (Key × HVal) →
    Except PyErr (List (Key × HVal) × Heap)
  | 0, _, _, _ => .error .recursionCap
  | _ + 1, h, [], self => .ok (self, h)
  | fuel + 1, h, (k, tv) :: rest, self =>
    match k with
    | .n _ => .error .typeError
    | .s key =>
      if String.mk (key.data.take 3) == rsvdPfx then .error .valueError
      else
        let newkey := sanitize key
        if reservedWords.contains newkey then .error .valueError
        else
          match
            ((match tv with
             | .tdict tes =>
               (match dcWrapF fuel h tes with
                | .error e => .error e
                | .ok (a2, h2) => .ok (HVal.ref a2, h2))
             | .hv v =>
               match v with
               | .ref a =>
                 match h.store a with
                 | some (.cdict _ es2) =>
                   (match dcWrapF fuel h (es2.map (fun p => (p.1, TVal.hv p.2))) with
                    | .error e => .error e
                    | .ok (a2, h2) => .ok (HVal.ref a2, h2))
                 | some (.clist _) => .ok (v, h)
                 | Option.none => .error .notModelled
               | .atom _ => .ok (v, h)) : Except PyErr (HVal × Heap)) with
          | .error e => .error e
          | .ok (v2, h2) =>
            let self1 := setEntry self (.s newkey) v2
            let self2 :=
              if newkey == key then self1
              else
                setEntry (setEntry self1 (.s (rsvdPfx ++ newkey)) (.atom (.astr key)))
                  (.s key) v2
            dcWrapLoop fuel h2 rest self2

end

mutual

/-- The model of `copy.deepcopy`: atoms are returned unchanged (CPython
returns immutables as-is), lists and plain dicts are copied recursively
into fresh cells, and a `Dict` wrapper instance dispatches to
`Dict.__deepcopy__`, which is `Obj(**self.__original__())` — a fresh
wrapper rebuilt through the original projection, sharing its non-dict
values (lists in particular) with the original.  The deepcopy memo table
(which dedupes shared substructure inside one copy) is not modelled; the
demo heaps are trees, where it has no effect.  The fuel argument bounds
the recursion depth. -/
def deepcopyH : Nat → Heap → HVal → Except PyErr (HVal × Heap)
  | 0, _, _ => .error .recursionCap
  | fuel + 1, h, v =>
    match v with
    | .atom a => .ok (.atom a, h)
    | .ref a =>
      match h.store a with
      | some (.clist l) =>
        match deepcopyHList fuel h l with
        | .error e => .error e
        | .ok (l2, h2) =>
          let p := h2.alloc (.clist l2)
          .ok (.ref p.1, p.2)
      | some (.cdict false es) =>
        match deepcopyHEntries fuel h es with
        | .error e => .error e
        | .ok (es2, h2) =>
          let p := h2.alloc (.cdict false es2)
          .ok (.ref p.1, p.2)
      | some (.cdict true es) =>
        match dcOrigF fuel h es with
        | .error e => .error e
        | .ok tes =>
          match dcWrapF fuel h tes with
          | .error e => .error e
          | .ok (a2, h2) => .ok (.ref a2, h2)
      | none => .error .notModelled

/-- Element-wise deep copy of a list cell, threading the heap. -/
def deepcopyHList : Nat → Heap → List HVal → Except PyErr (List HVal × Heap)
  | 0, _, _ => .error .recursionCap
  | _ + 1, h, [] => .ok ([], h)
  | fuel + 1, h, v :: rest =>
    match deepcopyH fuel h v with
    | .error e => .error e
    | .ok (v2, h2) =>
      match deepcopyHList fuel h2 rest with
      | .error e => .error e
      | .ok (rest2, h3) => .ok (v2 :: rest2, h3)

/-- Entry-wise deep copy of a dict cell (keys are immutable atoms and are
kept), threading the heap. -/
def deepcopyHEntries : Nat → Heap → List (Key × HVal) → Except PyErr (List (Key × HVal) × Heap)
  | 0, _, _ => .error .recursionCap
  | _ + 1, h, [] => .ok ([], h)
  | fuel + 1, h, (k, v) :: rest =>
    match deepcopyH fuel h v with
    | .error e => .error e
    | .ok (v2, h2) =>
      match deepcopyHEntries fuel h2 rest with
      | .error e => .error e
      | .ok (rest2, h3) => .ok ((k, v2) :: rest2, h3)

end

mutual

/-- The model of `_union_copy` in the heap: iterate `dict2.items()`; when
the key is `in` `dict1` and the source value is a mapping, recurse into
`dict1[key]`; otherwise install a deep copy of the source value.  Returns
`dict1` itself (the mutated first argument), as the source does. -/
def uCopyAux : Nat → Heap → HVal → HVal → Except PyErr (HVal × Heap)
  | 0, _, _, _ => .error .recursionCap
  | fuel + 1, h, d1, d2 =>
    match d2 with
    | .atom _ => .error .attributeError
    | .ref a2 =>
      match h.store a2 with
      | some (.cdict _ es2) => uCopyItems fuel h d1 es2
      | some (.clist _) => .error .attributeError
      | none => .error .notModelled

/-- The entry loop of `_union_copy`, threading the heap; the first
component of the result is always the `dict1` argument. -/
def uCopyItems : Nat → Heap → HVal → List (Key × HVal) → Except PyErr (HVal × Heap)
  | 0, _, _, _ => .error .recursionCap
  | _ + 1, h, d1, [] => .ok (d1, h)
  | fuel + 1, h, d1, (k, v) :: rest =>
    match containsH h d1 k with
    | .error e => .error e
    | .ok c =>
      if c && isDictH h v then
        match getItemH h d1 k with
        | .error e => .error e
        | .ok sub =>
          match uCopyAux fuel h sub v with
          | .error e => .error e
          | .ok (m, h2) =>
            match setItemH h2 d1 k m with
            | .error e => .error e
            | .ok h3 => uCopyItems fuel h3 d1 rest
      else
        match deepcopyH fuel h v with
        | .error e => .error e
        | .ok (v2, h2) =>
          match setItemH h2 d1 k v2 with
          | .error e => .error e
          | .ok h3 => uCopyItems fuel h3 d1 rest

end

/-- The model of `union_copy`: deep-copy `dict1`, then run `_union_copy`
of the copy and `dict2`. -/
def unionCopyH (fuel : Nat) (h : Heap) (d1 d2 : HVal) : Except PyErr (HVal × Heap) :=
  match deepcopyH fuel h d1 with
  | .error e => .error e
  | .ok (c, h2) => uCopyAux fuel h2 c d2

mutual

/-- The heap model of `Dict.__export__`: build a fresh plain dict from the
stored entries, skipping reverse-map entries and recursively exporting
wrapper values. -/
def objExportH : Nat → Heap → HVal → Except PyErr (HVal × Heap)
  | 0, _, _ => .error .recursionCap
  | fuel + 1, h, v =>
    match v with
    | .atom _ => .error .notModelled
    | .ref a =>
      match h.store a with
      | some (.cdict _ es) =>
        match objExportEntries fuel h es with
        | .error e => .error e
        | .ok (es2, h2) =>
          let p := h2.alloc (.cdict false es2)
          .ok (.ref p.1, p.2)
      | _ => .error .notModelled

/-- The entry loop of `__export__` (`key[:3]` on a non-string key raises
`TypeError`). -/
def objExportEntries : Nat → Heap → List (Key × HVal) →
    Except PyErr (List (Key × HVal) × Heap)
  | 0, _, _ => .error .recursionCap
  | _ + 1, h, [] => .ok ([], h)
  | fuel + 1, h, (k, v) :: rest =>
    match k with
    | .n _ => .error .typeError
    | .s key =>
      if String.mk (key.data.take 3) == rsvdPfx then objExportEntries fuel h rest
      else
        match (if isObjH h v then objExportH fuel h v else .ok (v, h)) with
        | .error e => .error e
        | .ok (v2, h2) =>
          match objExportEntries fuel h2 rest with
          | .error e => .error e
          | .ok (rest2, h3) => .ok ((.s key, v2) :: rest2, h3)

end

/-- Second pass of the heap-model `__original__` (see
`objOriginalRewrite`); pure on the entry lists, no heap effects. -/
def origRewriteH : List (Key × HVal) → List (Key × HVal) →
    Except PyErr (List (Key × HVal))
  | [], exported => .ok exported
  | (sk, ov) :: rest, exported =>
    match lookupKey exported sk with
    | none => .error .keyError
    | some value =>
      match valToKeyH ov with
      | .error e => .error e
      | .ok origKey =>
        match delEntry (setEntry exported origKey value) sk with
        | none => .error .keyError
        | some exported2 => origRewriteH rest exported2

mutual

/-- The heap model of `Dict.__original__`: split the stored entries into
the reverse map and the exported entries (recursing into wrapper values),
apply the rewrite pass, and allocate the result as a fresh plain dict. -/
def objOriginalH : Nat → Heap → HVal → Except PyErr (HVal × Heap)
  | 0, _, _ => .error .recursionCap
  | fuel + 1, h, v =>
    match v with
    | .atom _ => .error .notModelled
    | .ref a =>
      match h.store a with
      | some (.cdict _ es) =>
        match objOriginalSplitH fuel h es [] [] with
        | .error e => .error e
        | .ok (rewrite, exported, h2) =>
          match origRewriteH rewrite exported with
          | .error e => .error e
          | .ok final =>
            let p := h2.alloc (.cdict false final)
            .ok (.ref p.1, p.2)
      | _ => .error .notModelled

/-- First pass of the heap-model `__original__` over the stored entries. -/
def objOriginalSplitH : Nat → Heap → List (Key × HVal) → List (Key × HVal) →
    List (Key × HVal) → Except PyErr (List (Key × HVal) × List (Key × HVal) × Heap)
  | 0, _, _, _, _ => .error .recursionCap
  | _ + 1, h, [], rewrite, exported => .ok (rewrite, exported, h)
  | fuel + 1, h, (k, v) :: rest, rewrite, exported =>
    match k with
    | .n _ => .error .typeError
    | .s key =>
      if String.mk (key.data.take 3) == rsvdPfx then
        objOriginalSplitH fuel h rest (setEntry rewrite (.s (String.mk (key.data.drop 3))) v) exported
      else
        match (if isObjH h v then objOriginalH fuel h v else .ok (v, h)) with
        | .error e => .error e
        | .ok (v2, h2) =>
          objOriginalSplitH fuel h2 rest rewrite (setEntry exported (.s key) v2)

end

mutual

/-- The heap model of `export`: a wrapper argument is rebound to its
`__export__` (a fresh dict); then the loop mutates the current dict in
place, converting wrapper values by `__export__` and recursing into plain
dict values, and returns the current dict itself. -/
def exportH : Nat → Heap → HVal → Except PyErr (HVal × Heap)
  | 0, _, _ => .error .recursionCap
  | fuel + 1, h, dict1 =>
    match (if isObjH h dict1 then objExportH fuel h dict1 else .ok (dict1, h)) with
    | .error e => .error e
    | .ok (d1, h2) =>
      match d1 with
      | .atom _ => .error .attributeError
      | .ref a =>
        match h2.store a with
        | some (.cdict _ es) =>
          match exportLoop fuel h2 a es with
          | .error e => .error e
          | .ok h3 => .ok (.ref a, h3)
        | some (.clist _) => .error .attributeError
        | none => .error .notModelled

/-- The mutation loop of `export` over a snapshot of the items; each
converted child is assigned back into the same dict cell. -/
def exportLoop : Nat → Heap → Nat → List (Key × HVal) → Except PyErr Heap
  | 0, _, _, _ => .error .recursionCap
  | _ + 1, h, _, [] => .ok h
  | fuel + 1, h, a, (k, v) :: rest =>
    if isObjH h v then
      match objExportH fuel h v with
      | .error e => .error e
      | .ok (v2, h2) =>
        match setItemH h2 (.ref a) k v2 with
        | .error e => .error e
        | .ok h3 => exportLoop fuel h3 a rest
    else if isDictH h v then
      match exportH fuel h v with
      | .error e => .error e
      | .ok (v2, h2) =>
        match setItemH h2 (.ref a) k v2 with
        | .error e => .error e
        | .ok h3 => exportLoop fuel h3 a rest
    else exportLoop fuel h a rest

end

mutual

/-- The heap model of `original`: like `exportH` with `__original__` as
the conversion. -/
def originalH : Nat → Heap → HVal → Except PyErr (HVal × Heap)
  | 0, _, _ => .error .recursionCap
  | fuel + 1, h, dict1 =>
    match (if isObjH h dict1 then objOriginalH fuel h dict1 else .ok (dict1, h)) with
    | .error e => .error e
    | .ok (d1, h2) =>
      match d1 with
      | .atom _ => .error .attributeError
      | .ref a =>
        match h2.store a with
        | some (.cdict _ es) =>
          match originalLoop fuel h2 a es with
          | .error e => .error e
          | .ok h3 => .ok (.ref a, h3)
        | some (.clist _) => .error .attributeError
        | none => .error .notModelled

/-- The mutation loop of `original` over a snapshot of the items. -/
def originalLoop : Nat → Heap → Nat → List (Key × HVal) → Except PyErr Heap
  | 0, _, _, _ => .error .recursionCap
  | _ + 1, h, _, [] => .ok h
  | fuel + 1, h, a, (k, v) :: rest =>
    if isObjH h v then
      match objOriginalH fuel h v with
      | .error e => .error e
      | .ok (v2, h2) =>
        match setItemH h2 (.ref a) k v2 with
        | .error e => .error e
        | .ok h3 => originalLoop fuel h3 a rest
    else if isDictH h v then
      match originalH fuel h v with
      | .error e => .error e
      | .ok (v2, h2) =>
        match setItemH h2 (.ref a) k v2 with
        | .error e => .error e
        | .ok h3 => originalLoop fuel h3 a rest
    else originalLoop fuel h a rest

end

/-- The heap `h2` agrees with `h` on every address below `B` (nothing
below `B` was written). -/
def Heap.frameBelow (h h2 : Heap) (B : Nat) : Prop :=
  ∀ x, x < B → h2.store x = h.store x

/-- Every live cell at an address at or above `B` points only at or above
`B` (the region from `B` up is closed, so nothing reachable from inside it
leaves it). -/
def closedFrom (h : Heap) (B : Nat) : Prop :=
  ∀ a c, B ≤ a → h.store a = some c → ∀ b ∈ c.addrs, B ≤ b

/-- Whether a cell is a `Dict` wrapper instance. -/
def Cell.isWrapper : Cell → Bool
  | .cdict true _ => true
  | _ => false

/-- No cell of the heap is a wrapper instance: the premise under which
`copy.deepcopy` never dispatches to `Dict.__deepcopy__`, so every cell it
produces is fresh. -/
def WrapperFree (h : Heap) : Prop :=
  ∀ a c, h.store a = some c → Cell.isWrapper c = false

/-- The returned value of a heap run, when it succeeded. -/
def runVal : Except PyErr (HVal × Heap) → Option HVal
  | .ok (v, _) => some v
  | .error _ => Option.none

/-- The error of a failed heap run. -/
def runErr : Except PyErr (HVal × Heap) → Option PyErr
  | .ok _ => Option.none
  | .error e => some e

/-- The cell at address `a` after a successful heap run. -/
def runStore (r : Except PyErr (HVal × Heap)) (a : Nat) : Option Cell :=
  match r with
  | .ok (_, h) => h.store a
  | .error _ => Option.none

/-- Demo heap for the projection claims: address 0 holds a plain dict whose
entry `w` is a wrapper (address 1) and whose entry `p` is a plain dict
(address 2) holding a wrapper (address 3). -/
def exportDemoHeap : Heap := Heap.ofCells [
  .cdict false [(.s "w", .ref 1), (.s "p", .ref 2)],
  .cdict true [(.s "x", .atom (.aint 1))],
  .cdict false [(.s "m", .ref 3)],
  .cdict true [(.s "q", .atom (.aint 2))]]

/-- Demo heap for the `union_copy` claims: address 0 is the target
`a = ("k": 5)` and address 1 the source `b = ("k": ("a": 1))` (address 2
the nested source mapping); merging recurses into the scalar `5` and
raises `TypeError`. -/
def unionCopyErrHeap : Heap := Heap.ofCells [
  .cdict false [(.s "k", .atom (.aint 5))],
  .cdict false [(.s "k", .ref 2)],
  .cdict false [(.s "a", .atom (.aint 1))]]

/-- Demo heap for the sharing counterexample: address 0 is the input
`a = ("w": W)` whose value is the wrapper `W = Dict(("x": [1]))` at
address 1 with list cell 2; address 3 is the empty input `b`. -/
def unionCopyShareHeap : Heap := Heap.ofCells [
  .cdict false [(.s "w", .ref 1)],
  .cdict true [(.s "x", .ref 2)],
  .clist [.atom (.aint 1)],
  .cdict false []]

/-- Demo heap for the successful `union_copy` run (the docstring example):
`a = ("a": ("b": ("c": 1)))` at address 0, `b = ("a": ("b": ("d": 2)),
"e": [1, 2])` at address 3. -/
def unionCopyDemoHeap : Heap := Heap.ofCells [
  .cdict false [(.s "a", .ref 1)],
  .cdict false [(.s "b", .ref 2)],
  .cdict false [(.s "c", .atom (.aint 1))],
  .cdict false [(.s "a", .ref 4), (.s "e", .ref 6)],
  .cdict false [(.s "b", .ref 5)],
  .cdict false [(.s "d", .atom (.aint 2))],
  .clist [.atom (.aint 1), .atom (.aint 2)]]

/-! ## Theorems -/

theorem pathMeasure_cons_lower (k : Key) (rest : List Key) :
    2 * (rest.length + 1) ≤ pathMeasure (k :: rest) := by
  match k with
  | .s s =>
    show 2 * (rest.length + 1) ≤ 2 * (rest.length + 1) + _
    omega
  | .n _ => exact Nat.le_refl _

theorem pathMeasure_cons_upper (k : Key) (rest : List Key) :
    pathMeasure (k :: rest) ≤ 2 * (rest.length + 1) + 1 := by
  match k with
  | .s s =>
    show 2 * (rest.length + 1) + (if (rxIndex s).isSome then 1 else 0) ≤ _
    split <;> omega
  | .n _ =>
    show 2 * (rest.length + 1) ≤ _
    omega

theorem spliceIndex_tail_lt (ks : List Key) (k k2 : Key) (rest : List Key)
    (h : spliceIndex ks = k :: k2 :: rest) :
    pathMeasure (k2 :: rest) < pathMeasure ks := by
  match ks with
  | [] => exact absurd h (by simp [spliceIndex])
  | .s s :: t =>
    cases hr : rxIndex s with
    | some p =>
      have hs : spliceIndex (.s s :: t) = .s p.1 :: .n p.2 :: t := by
        simp [spliceIndex, hr]
      rw [hs] at h
      obtain ⟨h1, h2, h3⟩ : Key.s p.1 = k ∧ Key.n p.2 = k2 ∧ t = rest := by
        simpa using h
      subst h2
      rw [← h3]
      have hm : pathMeasure (.s s :: t) = 2 * (t.length + 1) + 1 := by
        show 2 * (t.length + 1) + (if (rxIndex s).isSome then 1 else 0) = _
        rw [hr]; rfl
      rw [hm]
      exact Nat.lt_succ_self _
    | none =>
      have hs : spliceIndex (.s s :: t) = .s s :: t := by
        simp [spliceIndex, hr]
      rw [hs] at h
      obtain ⟨h1, h2⟩ : Key.s s = k ∧ t = k2 :: rest := by simpa using h
      subst h2
      have hu := pathMeasure_cons_upper k2 rest
      have hm : pathMeasure (.s s :: k2 :: rest) =
          2 * ((k2 :: rest).length + 1) := by
        show 2 * ((k2 :: rest).length + 1) + (if (rxIndex s).isSome then 1 else 0) = _
        rw [hr]; rfl
      rw [hm]
      simp only [List.length_cons]
      omega
  | .n m :: t =>
    have hs : spliceIndex (.n m :: t) = .n m :: t := rfl
    rw [hs] at h
    obtain ⟨h1, h2⟩ : Key.n m = k ∧ t = k2 :: rest := by simpa using h
    subst h2
    have hu := pathMeasure_cons_upper k2 rest
    have hm : pathMeasure (.n m :: k2 :: rest) =
        2 * ((k2 :: rest).length + 1) := rfl
    rw [hm]
    simp only [List.length_cons]
    omega


/-- `String.mk` on the character data of a string gives the string back. -/
theorem string_mk_data (s : String) : String.mk s.data = s := rfl

theorem takeWhile_digits (l t : List Char) (hl : ∀ c ∈ l, isReDigit c = true) :
    (l ++ '[' :: t).takeWhile isReDigit = l := by
  have hbr : isReDigit '[' = false := by decide
  induction l with
  | nil => simp [List.takeWhile_cons, hbr]
  | cons c cs ih =>
    simp only [List.cons_append, List.takeWhile_cons]
    rw [hl c (List.mem_cons_self c cs)]
    simp [ih (fun c2 hc2 => hl c2 (List.mem_cons_of_mem _ hc2))]

theorem dropWhile_digits (l t : List Char) (hl : ∀ c ∈ l, isReDigit c = true) :
    (l ++ '[' :: t).dropWhile isReDigit = '[' :: t := by
  have hbr : isReDigit '[' = false := by decide
  induction l with
  | nil => simp [List.dropWhile_cons, hbr]
  | cons c cs ih =>
    simp only [List.cons_append, List.dropWhile_cons]
    rw [hl c (List.mem_cons_self c cs)]
    simpa using ih (fun c2 hc2 => hl c2 (List.mem_cons_of_mem _ hc2))

theorem takeWhile_no_newline (l : List Char) (hl : '\n' ∉ l) :
    l.takeWhile (fun c => !(c == '\n')) = l := by
  induction l with
  | nil => rfl
  | cons c cs ih =>
    have hcne : c ≠ '\n' := by
      intro he
      exact hl (List.mem_cons.mpr (Or.inl he.symm))
    have hb : (!(c == '\n')) = true := by simp [hcne]
    simp only [List.takeWhile_cons, hb]
    rw [if_pos trivial, ih (fun hm => hl (List.mem_cons_of_mem _ hm))]

theorem takeWhile_to_newline (l t : List Char) (hl : '\n' ∉ l) :
    (l ++ '\n' :: t).takeWhile (fun c => !(c == '\n')) = l := by
  induction l with
  | nil => simp [List.takeWhile_cons]
  | cons c cs ih =>
    have hcne : c ≠ '\n' := by
      intro he
      exact hl (List.mem_cons.mpr (Or.inl he.symm))
    have hb : (!(c == '\n')) = true := by simp [hcne]
    simp only [List.cons_append, List.takeWhile_cons, hb]
    rw [if_pos trivial, ih (fun hm => hl (List.mem_cons_of_mem _ hm))]

/-- Core shape of the regex model: when the list before the bracket ends
in a newline-free segment `name`, the match yields `name` and the numeric
value of the digit run (`pre0` covers everything before that last
newline; the first conjunct is the no-newline case). -/
theorem rxIndexAux_shape (name : String) (ds : List Char) (hne : ds ≠ [])
    (hdig : ∀ c ∈ ds, isReDigit c = true) (hnl : '\n' ∉ name.data) :
    rxIndexAux (name.data ++ '[' :: ds ++ [']']) = some (name, digitsToNat ds) ∧
    ∀ (pre0 : List Char),
      rxIndexAux (pre0 ++ '\n' :: (name.data ++ '[' :: ds ++ [']']))
        = some (name, digitsToNat ds) := by
  have htake : ∀ (t : List Char), (ds.reverse ++ '[' :: t).takeWhile isReDigit
      = ds.reverse :=
    fun t => takeWhile_digits _ _ (fun c hc => hdig c (List.mem_reverse.mp hc))
  have hdrop : ∀ (t : List Char), (ds.reverse ++ '[' :: t).dropWhile isReDigit
      = '[' :: t :=
    fun t => dropWhile_digits _ _ (fun c hc => hdig c (List.mem_reverse.mp hc))
  have hne2 : ds.reverse.isEmpty = false := by
    cases hds : ds.reverse with
    | nil => exact absurd (by simpa using congrArg List.reverse hds) hne
    | cons a l => rfl
  constructor
  · have hrev : (name.data ++ '[' :: ds ++ [']']).reverse
        = ']' :: (ds.reverse ++ '[' :: name.data.reverse) := by simp
    unfold rxIndexAux
    rw [hrev]
    simp only [htake, hdrop, hne2]
    rw [takeWhile_no_newline _ (fun hm => hnl (List.mem_reverse.mp hm))]
    simp [string_mk_data]
  · intro pre0
    have hrev : (pre0 ++ '\n' :: (name.data ++ '[' :: ds ++ [']'])).reverse
        = ']' :: (ds.reverse ++ '[' :: (name.data.reverse ++ '\n' :: pre0.reverse)) := by
      simp
    unfold rxIndexAux
    rw [hrev]
    simp only [htake, hdrop, hne2]
    rw [takeWhile_to_newline _ _ (fun hm => hnl (List.mem_reverse.mp hm))]
    simp [string_mk_data]

/-- The regex model on the `name[digits]` shape without newlines in the
name: the match splits off the name and the numeric value of the digits
(the last character is a bracket, so no trailing newline is dropped). -/
theorem rxIndex_shape (name : String) (ds : List Char) (hne : ds ≠ [])
    (hdig : ∀ c ∈ ds, isReDigit c = true) (hnl : '\n' ∉ name.data) :
    rxIndex (String.mk (name.data ++ '[' :: ds ++ [']'])) = some (name, digitsToNat ds) := by
  have hform : name.data ++ '[' :: ds ++ [']'] = (name.data ++ '[' :: ds) ++ [']'] := by
    simp
  have hlast : (name.data ++ '[' :: ds ++ [']']).getLast? = some ']' := by
    rw [hform, List.getLast?_concat]
  unfold rxIndex
  rw [show (String.mk (name.data ++ '[' :: ds ++ [']'])).data
      = name.data ++ '[' :: ds ++ [']'] from rfl]
  rw [if_neg (by rw [hlast]; simp)]
  exact (rxIndexAux_shape name ds hne hdig hnl).1

/-- The regex model when the first step carries everything before a last
newline in front of the `name[digits]` shape: re leftmost matching cannot
cross the newline, so the match starts after it and the prefix is
dropped. -/
theorem rxIndex_shape_newline (pre0 name : String) (ds : List Char) (hne : ds ≠ [])
    (hdig : ∀ c ∈ ds, isReDigit c = true) (hnl : '\n' ∉ name.data) :
    rxIndex (String.mk (pre0.data ++ '\n' :: (name.data ++ '[' :: ds ++ [']'])))
      = some (name, digitsToNat ds) := by
  have hform : pre0.data ++ '\n' :: (name.data ++ '[' :: ds ++ [']'])
      = (pre0.data ++ '\n' :: (name.data ++ '[' :: ds)) ++ [']'] := by
    simp
  have hlast : (pre0.data ++ '\n' :: (name.data ++ '[' :: ds ++ [']'])).getLast?
      = some ']' := by
    rw [hform, List.getLast?_concat]
  unfold rxIndex
  rw [show (String.mk (pre0.data ++ '\n' :: (name.data ++ '[' :: ds ++ [']']))).data
      = pre0.data ++ '\n' :: (name.data ++ '[' :: ds ++ [']']) from rfl]
  rw [if_neg (by rw [hlast]; simp)]
  exact (rxIndexAux_shape name ds hne hdig hnl).2 pre0.data

/-- The regex model when one newline trails the `name[digits]` shape: `$`
matches just before a single final newline, so the suffix still splices
and the newline is not part of any group. -/
theorem rxIndex_shape_trailing (name : String) (ds : List Char) (hne : ds ≠ [])
    (hdig : ∀ c ∈ ds, isReDigit c = true) (hnl : '\n' ∉ name.data) :
    rxIndex (String.mk ((name.data ++ '[' :: ds ++ [']']) ++ ['\n']))
      = some (name, digitsToNat ds) := by
  have hlast : ((name.data ++ '[' :: ds ++ [']']) ++ ['\n']).getLast? = some '\n' :=
    List.getLast?_concat _
  unfold rxIndex
  rw [show (String.mk ((name.data ++ '[' :: ds ++ [']']) ++ ['\n'])).data
      = (name.data ++ '[' :: ds ++ [']']) ++ ['\n'] from rfl]
  rw [if_pos (by rw [hlast]), List.dropLast_concat]
  exact (rxIndexAux_shape name ds hne hdig hnl).1

theorem spliceIndex_eq_nil {ks : List Key} (h : spliceIndex ks = []) : ks = [] := by
  cases ks with
  | nil => rfl
  | cons k rest =>
    cases k with
    | s str =>
      rw [show spliceIndex (Key.s str :: rest)
          = (match rxIndex str with
             | some (name, i) => Key.s name :: Key.n i :: rest
             | none => Key.s str :: rest) from rfl] at h
      rcases hr : rxIndex str with _ | ⟨nm, i⟩ <;> rw [hr] at h <;> simp at h
    | n m => simp [spliceIndex] at h

theorem splitDotAux_ne_nil (l : List Char) (acc : List Char) : splitDotAux l acc ≠ [] := by
  induction l generalizing acc with
  | nil => simp [splitDotAux]
  | cons c rest ih =>
    unfold splitDotAux
    by_cases hc : c = '.'
    · simp [hc]
    · simpa [hc] using ih (c :: acc)

theorem lookupKey_setEntry {α : Type} (es : List (Key × α)) (k : Key) (v : α) :
    lookupKey (setEntry es k v) k = some v := by
  induction es with
  | nil => simp [setEntry, lookupKey, List.find?]
  | cons p rest ih =>
    obtain ⟨k0, v0⟩ := p
    cases hk : (k0 == k) with
    | true => simp [setEntry, hk, lookupKey, List.find?]
    | false =>
      unfold setEntry
      rw [hk]
      simp only [lookupKey, List.find?, hk] at ih ⊢
      exact ih

theorem setEntry_setEntry {α : Type} (es : List (Key × α)) (k : Key) (v w : α) :
    setEntry (setEntry es k v) k w = setEntry es k w := by
  induction es with
  | nil => simp [setEntry]
  | cons p rest ih =>
    obtain ⟨k0, v0⟩ := p
    cases hk : (k0 == k) with
    | true => simp [setEntry, hk]
    | false => simp [setEntry, hk, ih]

theorem lookupKey_eq_none {α : Type} (es : List (Key × α)) (k : Key)
    (h : lookupKey es k = Option.none) : es.any (fun p => p.1 == k) = false := by
  induction es with
  | nil => rfl
  | cons p rest ih =>
    obtain ⟨k0, v0⟩ := p
    cases hk : (k0 == k) with
    | true => simp [lookupKey, List.find?, hk] at h
    | false =>
      simp only [lookupKey, List.find?, hk] at h ih
      simpa [hk] using ih h

theorem lookupKey_any_of_some {α : Type} (es : List (Key × α)) (k : Key) (v : α)
    (h : lookupKey es k = some v) : es.any (fun p => p.1 == k) = true := by
  induction es with
  | nil => simp [lookupKey, List.find?] at h
  | cons p rest ih =>
    obtain ⟨k0, v0⟩ := p
    cases hk : (k0 == k) with
    | true => simp [hk]
    | false =>
      simp only [lookupKey, List.find?, hk] at h ih
      simpa [hk] using ih h

theorem getItem_error (obj : Val) (k : Key) (e : PyErr) (h : getItem obj k = .error e) :
    e = .keyError ∨ e = .indexError ∨ e = .typeError := by
  cases obj with
  | null => cases k <;> simp [getItem] at h <;> simp [h]
  | int i => cases k <;> simp [getItem] at h <;> simp [h]
  | str t =>
    cases k with
    | n i =>
      simp only [getItem] at h
      cases hg : t.data.get? i <;> rw [hg] at h <;> simp_all
    | s t2 => simp [getItem] at h; simp [h]
  | list l =>
    cases k with
    | n i =>
      simp only [getItem] at h
      cases hg : l.get? i <;> rw [hg] at h <;> simp_all
    | s t2 => simp [getItem] at h; simp [h]
  | dict b es =>
    simp only [getItem] at h
    cases hg : lookupKey es k <;> rw [hg] at h <;> simp_all

theorem getItem_setItem (obj : Val) (k : Key) (v obj2 : Val)
    (h : setItem obj k v = .ok obj2) : getItem obj2 k = .ok v := by
  cases obj with
  | dict b es =>
    simp only [setItem] at h
    injection h with h2
    subst h2
    simp [getItem, lookupKey_setEntry]
  | list l =>
    cases k with
    | n i =>
      simp only [setItem] at h
      by_cases hi : i < l.length
      · rw [if_pos hi] at h
        injection h with h2
        subst h2
        simp [getItem, List.getElem?_set_eq_of_lt _ hi]
      · rw [if_neg hi] at h
        simp at h
    | s t => simp [setItem] at h
  | null => simp [setItem] at h
  | int i => simp [setItem] at h
  | str t => simp [setItem] at h

theorem digGetElem_cases (obj : Val) (k : Key) (d : Val) :
    (∃ v, digGetElem obj k d = .ok v) ∨ digGetElem obj k d = .error .typeError := by
  unfold digGetElem
  cases hg : getItem obj k with
  | ok v => exact Or.inl ⟨v, rfl⟩
  | error e =>
    rcases getItem_error obj k e hg with he | he | he <;> subst he <;> simp

theorem pathMeasure_le (ks : List Key) : pathMeasure ks ≤ 2 * ks.length + 1 := by
  cases ks with
  | nil => simp [pathMeasure]
  | cons k rest =>
    have := pathMeasure_cons_upper k rest
    simpa using this

/-- C4 counterexample: the claim reads `_splice_index` as mapping a first
step of the form `name[digits]` to the steps `name` then the index, but
the source regex `(.*)\[(\d+)\]$` is matched with re search semantics in
which `.` cannot cross a newline: for the step `"a\nb[1]"` (name `"a\nb"`)
the leftmost match starts after the newline, so the program yields
`("b", 1)`, not `("a\nb", 1)`; and `$` also matches just before a single
trailing newline, so `"abc[1]\n"` splices even though `[digits]` is not
its trailing suffix. -/
theorem C4_counterexample :
    spliceIndex [.s "a\nb[1]"] = [.s "b", .n 1] ∧
    spliceIndex [.s "a\nb[1]"] ≠ [.s "a\nb", .n 1] ∧
    spliceIndex [.s "abc[1]\n"] = [.s "abc", .n 1] := by
  refine ⟨by decide, by decide, by decide⟩

/-- C4 (amended): `_splice_index` inspects only the first step; splicing
follows the regex search semantics of `(.*)\[(\d+)\]$` — ignoring at most
one trailing newline, the step must end in a bracketed non-empty run of
Unicode decimal digits, and the captured name is the newline-free segment
immediately before the bracket (the leftmost match starts after the last
newline).  A first step the regex does not match (such as `"abc[a]"`) is
left as a single literal key step, as is a non-string first step; in
particular `_splice_index("abc[0]", "def")` yields `("abc", 0, "def")`. -/
theorem C4_splice_first_index :
    (∀ (name : String) (ds : List Char) (rest : List Key), ds ≠ [] →
        (∀ c ∈ ds, isReDigit c = true) → '\n' ∉ name.data →
        spliceIndex (.s (String.mk (name.data ++ '[' :: ds ++ [']'])) :: rest)
          = .s name :: .n (digitsToNat ds) :: rest) ∧
    (∀ (pre0 name : String) (ds : List Char) (rest : List Key), ds ≠ [] →
        (∀ c ∈ ds, isReDigit c = true) → '\n' ∉ name.data →
        spliceIndex (.s (String.mk (pre0.data ++ '\n' :: (name.data ++ '[' :: ds ++ [']']))) :: rest)
          = .s name :: .n (digitsToNat ds) :: rest) ∧
    (∀ (name : String) (ds : List Char) (rest : List Key), ds ≠ [] →
        (∀ c ∈ ds, isReDigit c = true) → '\n' ∉ name.data →
        spliceIndex (.s (String.mk ((name.data ++ '[' :: ds ++ [']']) ++ ['\n'])) :: rest)
          = .s name :: .n (digitsToNat ds) :: rest) ∧
    (∀ (str : String) (rest : List Key), rxIndex str = Option.none →
        spliceIndex (.s str :: rest) = .s str :: rest) ∧
    (∀ (m : Nat) (rest : List Key), spliceIndex (.n m :: rest) = .n m :: rest) ∧
    spliceIndex [.s "abc[0]", .s "def"] = [.s "abc", .n 0, .s "def"] ∧
    spliceIndex [.s "abc[a]", .s "def"] = [.s "abc[a]", .s "def"] := by
  refine ⟨?_, ?_, ?_, ?_, ?_, ?_, ?_⟩
  · intro name ds rest hne hdig hnl
    simp only [spliceIndex, rxIndex_shape name ds hne hdig hnl]
  · intro pre0 name ds rest hne hdig hnl
    simp only [spliceIndex, rxIndex_shape_newline pre0 name ds hne hdig hnl]
  · intro name ds rest hne hdig hnl
    simp only [spliceIndex, rxIndex_shape_trailing name ds hne hdig hnl]
  · intro str rest h
    simp only [spliceIndex, h]
  · intro m rest
    rfl
  · decide
  · decide

/-- C4 witness: the general splicing shape applied at `"abc[0]"` with one
further step. -/
theorem C4_witness :
    spliceIndex [.s (String.mk ("abc".data ++ '[' :: ['0'] ++ [']'])), .s "def"]
      = [.s "abc", .n (digitsToNat ['0']), .s "def"] :=
  C4_splice_first_index.1 "abc" ['0'] [.s "def"] (by decide) (by decide) (by decide)

/-- C8: constructing a wrapper from the mapping with entries
`"ugly key" : 1, "fine" : 2` stores the sanitized entry, the reverse-map
entry and the original-key entry side by side, and the original-keyed
projection restores exactly the original mapping: only original key names,
no sanitized duplicates and no reverse-map entries. -/
theorem C8_wrapper_round_trip :
    dictInit [(.s "ugly key", .int 1), (.s "fine", .int 2)] =
      .ok (.dict true
        [(.s "ugly_key", .int 1),
         (.s (rsvdPfx ++ "ugly_key"), .str "ugly key"),
         (.s "ugly key", .int 1),
         (.s "fine", .int 2)]) ∧
    objOriginal (.dict true
        [(.s "ugly_key", .int 1),
         (.s (rsvdPfx ++ "ugly_key"), .str "ugly key"),
         (.s "ugly key", .int 1),
         (.s "fine", .int 2)]) =
      .ok (.dict false [(.s "ugly key", .int 1), (.s "fine", .int 2)]) :=
  ⟨by decide, by decide⟩

/-- C9 counterexample: on a wrapper storing only the key `"c"`, the
attribute name `"keys"` is not a stored key, yet attribute access does not
raise `KeyError` — it finds the class attribute (the `dict.keys` method),
refuting the claim for attribute names that the class itself defines. -/
theorem C9_counterexample :
    lookupKey ([(.s "c", .int 3)] : List (Key × Val)) (.s "keys") = Option.none ∧
    objGetAttr [(.s "c", .int 3)] "keys" ≠ Except.error PyErr.keyError ∧
    objGetAttr [(.s "c", .int 3)] "keys" = .ok Option.none := by
  refine ⟨by decide, by decide, by decide⟩

/-- C9 (amended): for every attribute name that is neither an attribute of
the wrapper class itself (a method or class field) nor a stored key,
attribute access raises `KeyError`, because `__getattr__` is
`dict.__getitem__`; and no attribute access ever raises `AttributeError`. -/
theorem C9_attr_missing_key :
    (∀ (es : List (Key × Val)) (n : String),
        n ∉ dictClassAttrs →
        lookupKey es (.s n) = Option.none →
        objGetAttr es n = .error .keyError) ∧
    (∀ (es : List (Key × Val)) (n : String),
        objGetAttr es n ≠ Except.error PyErr.attributeError) := by
  constructor
  · intro es n hc hl
    simp [objGetAttr, hc, hl]
  · intro es n
    unfold objGetAttr
    by_cases hc : n ∈ dictClassAttrs
    · simp [hc]
    · cases hl : lookupKey es (.s n) <;> simp [hc, hl]

/-- C9 witness: the attribute `"zzz"` is neither a class attribute nor
stored, and access raises `KeyError`. -/
theorem C9_witness : objGetAttr [(.s "c", .int 3)] "zzz" = .error .keyError :=
  C9_attr_missing_key.1 [(.s "c", .int 3)] "zzz" (by decide) (by decide)

/-- C1 counterexample: `dig_get({"a": 1}, "a.b")` raises `TypeError` (the
truthy scalar `1` is subscripted mid-path, and only `KeyError`,
`IndexError` and `AttributeError` are caught), refuting "never raises". -/
theorem C1_counterexample :
    dig_get (.dict false [(.s "a", .int 1)]) "a.b" [] = .error .typeError := by
  decide

/-- C3 counterexample: `dug({}, "a[0].b", 5)` succeeds, auto-creating the
missing integer index step as an int-keyed mapping entry (the claim says
setting through a missing index position fails); and on
`{"a": [{"x": 1}]}` the same path replaces the existing dict element at
index 0 by a fresh empty mapping (the claim says present intermediate
values are descended into rather than replaced), because membership in a
sequence is element membership, not index validity. -/
theorem C3_counterexample :
    dug (.dict false []) "a[0].b" (.int 5)
      = .ok (.dict false [(.s "a", .dict false [(.n 0, .dict false [(.s "b", .int 5)])])], true) ∧
    dug (.dict false [(.s "a", .list [.dict false [(.s "x", .int 1)]])]) "a[0].b" (.int 5)
      = .ok (.dict false [(.s "a", .list [.dict false [(.s "b", .int 5)]])], true) :=
  ⟨by decide, by decide⟩

/-- C5 counterexample: when the shared key holds a scalar in the target and
a mapping in the source, `union` does not merge into a fresh mapping — it
recurses into the scalar and raises `TypeError`. -/
theorem C5_counterexample :
    union (.dict false [(.s "k", .int 5)]) (.dict false [(.s "k", .dict false [(.s "a", .int 1)])])
      = .error .typeError := by
  decide

theorem digGetAux_ok_or_type : ∀ (fuel : Nat) (obj dflt : Val) (ks : List Key),
    ks ≠ [] → pathMeasure ks < fuel →
    (∃ v, digGetAux fuel obj dflt ks = .ok v) ∨
      digGetAux fuel obj dflt ks = .error .typeError := by
  intro fuel
  induction fuel with
  | zero => intro obj dflt ks hne h; omega
  | succ fuel ih =>
    intro obj dflt ks hne hlt
    rcases hsp : spliceIndex ks with _ | ⟨k, _ | ⟨k2, rest⟩⟩
    · exact absurd (spliceIndex_eq_nil hsp) hne
    · have heq : digGetAux (fuel + 1) obj dflt ks
          = if !obj.truthy then .ok dflt else digGetElem obj k dflt := by
        simp only [digGetAux]
        rw [hsp]
      by_cases ht : obj.truthy
      · rcases digGetElem_cases obj k dflt with ⟨v, hv⟩ | hv
        · exact Or.inl ⟨v, by rw [heq]; simp [ht, hv]⟩
        · exact Or.inr (by rw [heq]; simp [ht, hv])
      · exact Or.inl ⟨dflt, by rw [heq]; simp [ht]⟩
    · have heq : digGetAux (fuel + 1) obj dflt ks
          = if !obj.truthy then .ok dflt
            else
              match digGetElem obj k dflt with
              | .ok child => digGetAux fuel child dflt (k2 :: rest)
              | .error e => .error e := by
        simp only [digGetAux]
        rw [hsp]
      by_cases ht : obj.truthy
      · rcases digGetElem_cases obj k dflt with ⟨child, hv⟩ | hv
        · have hm : pathMeasure (k2 :: rest) < fuel := by
            have h1 := spliceIndex_tail_lt ks k k2 rest hsp
            omega
          rcases ih child dflt (k2 :: rest) (by simp) hm with ⟨v, hrec⟩ | hrec
          · exact Or.inl ⟨v, by rw [heq]; simp [ht, hv, hrec]⟩
          · exact Or.inr (by rw [heq]; simp [ht, hv, hrec])
        · exact Or.inr (by rw [heq]; simp [ht, hv])
      · exact Or.inl ⟨dflt, by rw [heq]; simp [ht]⟩

theorem getItem_ok_truthy {obj : Val} {k : Key} {v : Val}
    (h : getItem obj k = .ok v) : obj.truthy = true := by
  cases obj with
  | null => simp [getItem] at h
  | int i => simp [getItem] at h
  | str s =>
    cases k with
    | s t => simp [getItem] at h
    | n i =>
      simp only [getItem] at h
      cases hc : s.data.get? i with
      | none => rw [hc] at h; simp at h
      | some c =>
        simp only [Val.truthy, bne_iff_ne, ne_eq, decide_eq_true_eq]
        intro hse
        rw [hse] at hc
        simp at hc
  | list l =>
    cases k with
    | s t => simp [getItem] at h
    | n i =>
      simp only [getItem] at h
      cases hc : l.get? i with
      | none => rw [hc] at h; simp at h
      | some w =>
        have hlen : i < l.length := by
          by_contra hge
          rw [List.get?_eq_none.mpr (le_of_not_lt hge)] at hc
          simp at hc
        cases l with
        | nil => simp at hlen
        | cons a as => rfl
  | dict b es =>
    simp only [getItem] at h
    cases hl : lookupKey es k with
    | none => rw [hl] at h; simp at h
    | some w =>
      cases es with
      | nil => simp [lookupKey, List.find?] at hl
      | cons p ps => rfl

theorem digAux_digGetAux : ∀ (fuel : Nat) (obj : Val) (ks : List Key) (v dflt : Val),
    digAux fuel obj ks = .ok v → digGetAux fuel obj dflt ks = .ok v := by
  intro fuel
  induction fuel with
  | zero => intro obj ks v dflt h; simp [digAux] at h
  | succ fuel ih =>
    intro obj ks v dflt h
    rcases hsp : spliceIndex ks with _ | ⟨k, _ | ⟨k2, rest⟩⟩
    · have heq : digAux (fuel + 1) obj ks = .error .indexError := by
        simp only [digAux]
        rw [hsp]
      rw [heq] at h
      simp at h
    · have heq : digAux (fuel + 1) obj ks = getItem obj k := by
        simp only [digAux]
        rw [hsp]
      have heq2 : digGetAux (fuel + 1) obj dflt ks
          = if !obj.truthy then .ok dflt else digGetElem obj k dflt := by
        simp only [digGetAux]
        rw [hsp]
      rw [heq] at h
      have ht := getItem_ok_truthy h
      rw [heq2]
      simp [ht, digGetElem, h]
    · have heq : digAux (fuel + 1) obj ks
          = (match getItem obj k with
             | .ok child => digAux fuel child (k2 :: rest)
             | .error e => .error e) := by
        simp only [digAux]
        rw [hsp]
      have heq2 : digGetAux (fuel + 1) obj dflt ks
          = if !obj.truthy then .ok dflt
            else
              match digGetElem obj k dflt with
              | .ok child => digGetAux fuel child dflt (k2 :: rest)
              | .error e => .error e := by
        simp only [digGetAux]
        rw [hsp]
      rw [heq] at h
      cases hg : getItem obj k with
      | error e => simp [hg] at h
      | ok child =>
        simp only [hg] at h
        have ht := getItem_ok_truthy hg
        have hge : digGetElem obj k dflt = .ok child := by simp [digGetElem, hg]
        rw [heq2, if_neg (by simp [ht]), hge]
        exact ih child (k2 :: rest) v dflt h

/-- C1 (amended): `dig_get` returns the value at the path whenever the
strict getter `dig` resolves it; a falsy intermediate value
short-circuits to the default, and a missing mapping key or an
out-of-range sequence index at a step yields the default at that step
(`KeyError`, `IndexError` and `AttributeError` are the caught
exceptions); but `dig_get` is not exception-free — `TypeError` is not
caught, and it is the one exception `dig_get` can raise: for every
structure, path and default the call either returns a value or raises
`TypeError`. -/
theorem C1_dig_get_only_type_error :
    (∀ (obj : Val) (key : String) (dflt : List Val),
        (∃ v, dig_get obj key dflt = .ok v) ∨
          dig_get obj key dflt = .error .typeError) ∧
    (∀ (obj v : Val) (key : String) (dflt : List Val),
        dig obj key = .ok v → dig_get obj key dflt = .ok v) ∧
    (∀ (fuel : Nat) (obj dflt : Val) (ks : List Key), ks ≠ [] →
        obj.truthy = false → digGetAux (fuel + 1) obj dflt ks = .ok dflt) ∧
    (∀ (f : Bool) (es : List (Key × Val)) (k : Key) (dflt : Val),
        lookupKey es k = Option.none → digGetElem (.dict f es) k dflt = .ok dflt) ∧
    (∀ (l : List Val) (i : Nat) (dflt : Val),
        l.length ≤ i → digGetElem (.list l) (.n i) dflt = .ok dflt) := by
  refine ⟨?_, ?_, ?_, ?_, ?_⟩
  · intro obj key dflt
    have hne : (splitDot key).map Key.s ≠ [] := by
      intro hmap
      exact splitDotAux_ne_nil key.data [] (by simpa using hmap)
    have hlt : pathMeasure ((splitDot key).map Key.s)
        < 2 * ((splitDot key).map Key.s).length + 2 := by
      have := pathMeasure_le ((splitDot key).map Key.s)
      omega
    simp only [dig_get]
    rcases digGetAux_ok_or_type _ obj _ _ hne hlt with ⟨v, hv⟩ | hv
    · rw [hv]
      cases v <;> exact Or.inl ⟨_, rfl⟩
    · rw [hv]
      exact Or.inr rfl
  · intro obj v key dflt h
    simp only [dig] at h
    simp only [dig_get]
    rw [digAux_digGetAux _ _ _ _ _ h]
  · intro fuel obj dflt ks hne ht
    rcases hsp : spliceIndex ks with _ | ⟨k, _ | ⟨k2, rest⟩⟩
    · exact absurd (spliceIndex_eq_nil hsp) hne
    · have heq : digGetAux (fuel + 1) obj dflt ks
          = if !obj.truthy then .ok dflt else digGetElem obj k dflt := by
        simp only [digGetAux]
        rw [hsp]
      rw [heq]
      simp [ht]
    · have heq : digGetAux (fuel + 1) obj dflt ks
          = if !obj.truthy then .ok dflt
            else
              match digGetElem obj k dflt with
              | .ok child => digGetAux fuel child dflt (k2 :: rest)
              | .error e => .error e := by
        simp only [digGetAux]
        rw [hsp]
      rw [heq]
      simp [ht]
  · intro f es k dflt hl
    simp [digGetElem, getItem, hl]
  · intro l i dflt hge
    have hn : l.get? i = Option.none := List.get?_eq_none.mpr hge
    simp only [digGetElem, getItem]
    rw [hn]

/-- C1 witness: the strict-resolution agreement applied at
`dig_get({"a": {"b": 1}}, "a.b")` with no default supplied. -/
theorem C1_witness :
    dig_get (.dict false [(.s "a", .dict false [(.s "b", .int 1)])]) "a.b" [] = .ok (.int 1) :=
  C1_dig_get_only_type_error.2.1
    (.dict false [(.s "a", .dict false [(.s "b", .int 1)])]) (.int 1) "a.b" [] (by decide)

theorem dugAux_digAux : ∀ (fuel : Nat) (obj value : Val) (ks : List Key) (r : Val) (b : Bool),
    dugAux fuel obj value ks = .ok (r, b) → digAux fuel r ks = .ok value := by
  intro fuel
  induction fuel with
  | zero => intro obj value ks r b h; simp [dugAux] at h
  | succ fuel ih =>
    intro obj value ks r b h
    rcases hsp : spliceIndex ks with _ | ⟨k, _ | ⟨k2, rest⟩⟩
    · have heq : dugAux (fuel + 1) obj value ks = .error .indexError := by
        simp only [dugAux]
        rw [hsp]
      rw [heq] at h
      simp at h
    · have heq : dugAux (fuel + 1) obj value ks
          = match setItem obj k value with
            | .ok obj2 => .ok (obj2, true)
            | .error e => .error e := by
        simp only [dugAux]
        rw [hsp]
      rw [heq] at h
      cases hs : setItem obj k value with
      | ok obj2 =>
        rw [hs] at h
        simp only [Except.ok.injEq, Prod.mk.injEq] at h
        obtain ⟨h1, _⟩ := h
        have heq2 : digAux (fuel + 1) obj2 ks = getItem obj2 k := by
          simp only [digAux]
          rw [hsp]
        rw [← h1, heq2]
        exact getItem_setItem obj k value obj2 hs
      | error e =>
        rw [hs] at h
        simp at h
    · have heq : dugAux (fuel + 1) obj value ks
          = match containsV obj k with
            | .error e => .error e
            | .ok m =>
              match (if m then Except.ok obj else setItem obj k (.dict false [])) with
              | .error e => .error e
              | .ok obj1 =>
                match getItem obj1 k with
                | .error e => .error e
                | .ok child =>
                  match dugAux fuel child value (k2 :: rest) with
                  | .error e => .error e
                  | .ok (child2, b2) =>
                    match setItem obj1 k child2 with
                    | .error e => .error e
                    | .ok obj2 => .ok (obj2, b2) := by
        simp only [dugAux]
        rw [hsp]
      rw [heq] at h
      cases hc : containsV obj k with
      | error e => simp [hc] at h
      | ok m =>
      simp only [hc] at h
      cases ho : (if m = true then Except.ok obj else setItem obj k (Val.dict false [])) with
      | error e => simp [ho] at h
      | ok obj1 =>
      simp only [ho] at h
      cases hg : getItem obj1 k with
      | error e => simp [hg] at h
      | ok child =>
      simp only [hg] at h
      cases hrec : dugAux fuel child value (k2 :: rest) with
      | error e => simp [hrec] at h
      | ok p =>
      obtain ⟨child2, b2⟩ := p
      simp only [hrec] at h
      cases hset : setItem obj1 k child2 with
      | error e => simp [hset] at h
      | ok obj2 =>
      simp only [hset, Except.ok.injEq, Prod.mk.injEq] at h
      obtain ⟨h1, h2⟩ := h
      have heq2 : digAux (fuel + 1) obj2 ks
          = match getItem obj2 k with
            | .ok child => digAux fuel child (k2 :: rest)
            | .error e => .error e := by
        simp only [digAux]
        rw [hsp]
      rw [← h1, heq2, getItem_setItem obj1 k child2 obj2 hset]
      exact ih child value (k2 :: rest) child2 b2 hrec

/-- C2: whenever `dug` succeeds in setting `value` at a dotted path, `dig`
of the updated structure at the same path returns exactly that value. -/
theorem C2_dug_dig_round_trip (obj : Val) (key : String) (v r : Val) (b : Bool)
    (h : dug obj key v = .ok (r, b)) : dig r key = .ok v := by
  simp only [dug] at h
  simp only [dig]
  exact dugAux_digAux _ obj v _ r b h

/-- C2 witness: the round trip at `{"a": {"b": {"c": 1}}}`, path
`"a.b.c"`, value `10`. -/
theorem C2_witness :
    dug (.dict false [(.s "a", .dict false [(.s "b", .dict false [(.s "c", .int 1)])])])
        "a.b.c" (.int 10)
      = .ok (.dict false [(.s "a", .dict false [(.s "b", .dict false [(.s "c", .int 10)])])], true) ∧
    dig (.dict false [(.s "a", .dict false [(.s "b", .dict false [(.s "c", .int 10)])])]) "a.b.c"
      = .ok (.int 10) :=
  ⟨by decide,
   C2_dug_dig_round_trip
     (.dict false [(.s "a", .dict false [(.s "b", .dict false [(.s "c", .int 1)])])])
     "a.b.c" (.int 10)
     (.dict false [(.s "a", .dict false [(.s "b", .dict false [(.s "c", .int 10)])])])
     true (by decide)⟩

theorem dugAux_returns_true : ∀ (fuel : Nat) (obj value : Val) (ks : List Key) (r : Val) (b : Bool),
    dugAux fuel obj value ks = .ok (r, b) → b = true := by
  intro fuel
  induction fuel with
  | zero => intro obj value ks r b h; simp [dugAux] at h
  | succ fuel ih =>
    intro obj value ks r b h
    rcases hsp : spliceIndex ks with _ | ⟨k, _ | ⟨k2, rest⟩⟩
    · have heq : dugAux (fuel + 1) obj value ks = .error .indexError := by
        simp only [dugAux]
        rw [hsp]
      rw [heq] at h
      simp at h
    · have heq : dugAux (fuel + 1) obj value ks
          = match setItem obj k value with
            | .ok obj2 => .ok (obj2, true)
            | .error e => .error e := by
        simp only [dugAux]
        rw [hsp]
      rw [heq] at h
      cases hs : setItem obj k value with
      | ok obj2 =>
        rw [hs] at h
        simp only [Except.ok.injEq, Prod.mk.injEq] at h
        exact h.2.symm
      | error e =>
        rw [hs] at h
        simp at h
    · have heq : dugAux (fuel + 1) obj value ks
          = match containsV obj k with
            | .error e => .error e
            | .ok m =>
              match (if m then Except.ok obj else setItem obj k (.dict false [])) with
              | .error e => .error e
              | .ok obj1 =>
                match getItem obj1 k with
                | .error e => .error e
                | .ok child =>
                  match dugAux fuel child value (k2 :: rest) with
                  | .error e => .error e
                  | .ok (child2, b2) =>
                    match setItem obj1 k child2 with
                    | .error e => .error e
                    | .ok obj2 => .ok (obj2, b2) := by
        simp only [dugAux]
        rw [hsp]
      rw [heq] at h
      cases hc : containsV obj k with
      | error e => simp [hc] at h
      | ok m =>
      simp only [hc] at h
      cases ho : (if m = true then Except.ok obj else setItem obj k (Val.dict false [])) with
      | error e => simp [ho] at h
      | ok obj1 =>
      simp only [ho] at h
      cases hg : getItem obj1 k with
      | error e => simp [hg] at h
      | ok child =>
      simp only [hg] at h
      cases hrec : dugAux fuel child value (k2 :: rest) with
      | error e => simp [hrec] at h
      | ok p =>
      obtain ⟨child2, b2⟩ := p
      simp only [hrec] at h
      cases hset : setItem obj1 k child2 with
      | error e => simp [hset] at h
      | ok obj2 =>
      simp only [hset, Except.ok.injEq, Prod.mk.injEq] at h
      obtain ⟨h1, h2⟩ := h
      rw [← h2]
      exact ih child value (k2 :: rest) child2 b2 hrec

/-- C3 (amended): during descent `_dug` creates an empty plain mapping at
every step that is not `in` the current container, a test that is key
membership for mappings and element membership for sequences — so missing
integer index steps into a mapping are auto-created as int-keyed entries
rather than failing, and a sequence position is descended into only when
the index value happens to be an element of the sequence (it is otherwise
overwritten, or `IndexError` is raised out of range); a mapping step whose
key is present is descended into rather than replaced; on success the
updated root is produced and the return value is always `True`. -/
theorem C3_dug_step_behavior :
    (∀ (fuel : Nat) (f : Bool) (es : List (Key × Val)) (k k2 : Key) (rest : List Key) (value : Val),
        spliceIndex (k :: k2 :: rest) = k :: k2 :: rest →
        lookupKey es k = Option.none →
        dugAux (fuel + 1) (.dict f es) value (k :: k2 :: rest) =
          (match dugAux fuel (.dict false []) value (k2 :: rest) with
           | .ok p => .ok (.dict f (setEntry es k p.1), p.2)
           | .error e => .error e)) ∧
    (∀ (fuel : Nat) (f : Bool) (es : List (Key × Val)) (k k2 : Key) (rest : List Key) (value w : Val),
        spliceIndex (k :: k2 :: rest) = k :: k2 :: rest →
        lookupKey es k = some w →
        dugAux (fuel + 1) (.dict f es) value (k :: k2 :: rest) =
          (match dugAux fuel w value (k2 :: rest) with
           | .ok p => .ok (.dict f (setEntry es k p.1), p.2)
           | .error e => .error e)) ∧
    (∀ (fuel : Nat) (obj value : Val) (ks : List Key) (r : Val) (b : Bool),
        dugAux fuel obj value ks = .ok (r, b) → b = true) := by
  refine ⟨?_, ?_, dugAux_returns_true⟩
  · intro fuel f es k k2 rest value hsp hl
    have heq : dugAux (fuel + 1) (.dict f es) value (k :: k2 :: rest)
        = match containsV (.dict f es) k with
          | .error e => .error e
          | .ok m =>
            match (if m then Except.ok (Val.dict f es) else setItem (.dict f es) k (.dict false [])) with
            | .error e => .error e
            | .ok obj1 =>
              match getItem obj1 k with
              | .error e => .error e
              | .ok child =>
                match dugAux fuel child value (k2 :: rest) with
                | .error e => .error e
                | .ok (child2, b2) =>
                  match setItem obj1 k child2 with
                  | .error e => .error e
                  | .ok obj2 => .ok (obj2, b2) := by
      simp only [dugAux]
      rw [hsp]
    rw [heq]
    have hc : containsV (.dict f es) k = .ok false := by
      simp [containsV, lookupKey_eq_none es k hl]
    simp only [hc]
    have hset : setItem (.dict f es) k (.dict false []) = .ok (.dict f (setEntry es k (.dict false []))) := by
      simp [setItem]
    simp only [if_false, Bool.false_eq_true, hset]
    have hg : getItem (.dict f (setEntry es k (.dict false []))) k = .ok (.dict false []) := by
      simp [getItem, lookupKey_setEntry]
    simp only [hg]
    cases hrec : dugAux fuel (.dict false []) value (k2 :: rest) with
    | ok p =>
      obtain ⟨c2, b2⟩ := p
      simp [setItem, setEntry_setEntry]
    | error e => simp
  · intro fuel f es k k2 rest value w hsp hl
    have heq : dugAux (fuel + 1) (.dict f es) value (k :: k2 :: rest)
        = match containsV (.dict f es) k with
          | .error e => .error e
          | .ok m =>
            match (if m then Except.ok (Val.dict f es) else setItem (.dict f es) k (.dict false [])) with
            | .error e => .error e
            | .ok obj1 =>
              match getItem obj1 k with
              | .error e => .error e
              | .ok child =>
                match dugAux fuel child value (k2 :: rest) with
                | .error e => .error e
                | .ok (child2, b2) =>
                  match setItem obj1 k child2 with
                  | .error e => .error e
                  | .ok obj2 => .ok (obj2, b2) := by
      simp only [dugAux]
      rw [hsp]
    rw [heq]
    have hc : containsV (.dict f es) k = .ok true := by
      simp [containsV, lookupKey_any_of_some es k w hl]
    simp only [hc]
    have hg : getItem (.dict f es) k = .ok w := by
      simp [getItem, hl]
    simp only [if_true, hg]
    cases hrec : dugAux fuel w value (k2 :: rest) with
    | ok p =>
      obtain ⟨c2, b2⟩ := p
      simp [setItem]
    | error e => simp

/-- C3 witness: the missing-step creation rule applied at the integer step
`0` into an empty mapping (the auto-created int-keyed entry). -/
theorem C3_witness :
    dugAux 5 (.dict false []) (.int 5) [.n 0, .s "b"] =
      (match dugAux 4 (.dict false []) (.int 5) [.s "b"] with
       | .ok p => .ok (.dict false (setEntry [] (.n 0) p.1), p.2)
       | .error e => .error e) :=
  C3_dug_step_behavior.1 4 false [] (.n 0) (.s "b") [] (.int 5) (by decide) (by decide)

theorem union_scalar_nonempty (w : Val) (hw : w.isScalar = true) (b2 : Bool)
    (p : Key × Val) (ps : List (Key × Val)) :
    union w (.dict b2 (p :: ps)) = .error .typeError := by
  obtain ⟨k2, v2⟩ := p
  cases w with
  | null => simp [union, unionItems, containsV]
  | int i => simp [union, unionItems, containsV]
  | str t =>
    cases k2 with
    | n m => simp [union, unionItems, containsV]
    | s t2 =>
      by_cases hin : (t2.data <:+: t.data) <;> cases hv2 : v2.isDict <;>
        simp [union, unionItems, containsV, getItem, setItem, hin, hv2]
  | list l => simp [Val.isScalar] at hw
  | dict b es2 => simp [Val.isScalar] at hw

/-- C5 (amended): `union` processes each source entry as follows — if the
key exists in both and the source value is a mapping, it recursively merges
into the target's existing value at that key, whatever it is (never into a
fresh mapping): merging proceeds normally when that value is a mapping, and
raises `TypeError` when it is a scalar and the source mapping is non-empty;
in every other case (source value not a mapping, or key absent from the
target) the source value is installed at the key wholesale; the mutated
target is the result. -/
theorem C5_union_policy :
    (∀ (f g : Bool) (es : List (Key × Val)) (k : Key) (v : Val),
        v.isDict = false →
        union (.dict f es) (.dict g [(k, v)]) = .ok (.dict f (setEntry es k v))) ∧
    (∀ (f g : Bool) (es : List (Key × Val)) (k : Key) (b2 : Bool) (vs : List (Key × Val)),
        lookupKey es k = Option.none →
        union (.dict f es) (.dict g [(k, .dict b2 vs)])
          = .ok (.dict f (setEntry es k (.dict b2 vs)))) ∧
    (∀ (f g : Bool) (es : List (Key × Val)) (k : Key) (b1 : Bool) (ws : List (Key × Val))
        (b2 : Bool) (vs : List (Key × Val)),
        lookupKey es k = some (.dict b1 ws) →
        union (.dict f es) (.dict g [(k, .dict b2 vs)])
          = (match union (.dict b1 ws) (.dict b2 vs) with
             | .ok m => .ok (.dict f (setEntry es k m))
             | .error e => .error e)) ∧
    (∀ (f g : Bool) (es : List (Key × Val)) (k : Key) (w : Val) (b2 : Bool)
        (p : Key × Val) (ps : List (Key × Val)),
        lookupKey es k = some w →
        w.isScalar = true →
        union (.dict f es) (.dict g [(k, .dict b2 (p :: ps))]) = .error .typeError) := by
  refine ⟨?_, ?_, ?_, ?_⟩
  · intro f g es k v hv
    have h1 : union (.dict f es) (.dict g [(k, v)]) = unionItems (.dict f es) [(k, v)] := rfl
    rw [h1]
    simp only [unionItems]
    have hc : containsV (.dict f es) k = .ok (es.any fun p => p.1 == k) := rfl
    simp only [hc, hv, Bool.and_false, if_false, Bool.false_eq_true, setItem]
  · intro f g es k b2 vs hl
    have h1 : union (.dict f es) (.dict g [(k, .dict b2 vs)])
        = unionItems (.dict f es) [(k, .dict b2 vs)] := rfl
    rw [h1]
    simp only [unionItems]
    have hc : containsV (.dict f es) k = .ok false := by
      simp [containsV, lookupKey_eq_none es k hl]
    simp only [hc, Bool.false_and, if_false, Bool.false_eq_true, setItem]
  · intro f g es k b1 ws b2 vs hl
    have h1 : union (.dict f es) (.dict g [(k, .dict b2 vs)])
        = unionItems (.dict f es) [(k, .dict b2 vs)] := rfl
    rw [h1]
    simp only [unionItems]
    have hc : containsV (.dict f es) k = .ok true := by
      simp [containsV, lookupKey_any_of_some es k _ hl]
    have hg : getItem (.dict f es) k = .ok (.dict b1 ws) := by
      simp [getItem, hl]
    simp only [hc, Val.isDict, Bool.and_true, if_true, hg]
    cases hrec : union (.dict b1 ws) (.dict b2 vs) with
    | ok m => simp [setItem, unionItems]
    | error e => simp
  · intro f g es k w b2 p ps hl hw
    have h1 : union (.dict f es) (.dict g [(k, .dict b2 (p :: ps))])
        = unionItems (.dict f es) [(k, .dict b2 (p :: ps))] := rfl
    rw [h1]
    simp only [unionItems]
    have hc : containsV (.dict f es) k = .ok true := by
      simp [containsV, lookupKey_any_of_some es k _ hl]
    have hg : getItem (.dict f es) k = .ok w := by
      simp [getItem, hl]
    simp only [hc, Val.isDict, Bool.and_true, if_true, hg,
      union_scalar_nonempty w hw b2 p ps]

/-- C5 witness: the recursive-merge case applied at a shared key holding
mappings on both sides. -/
theorem C5_witness :
    union (.dict false [(.s "a", .dict false [(.s "x", .int 1)])])
        (.dict false [(.s "a", .dict false [(.s "y", .int 2)])]) =
      (match union (.dict false [(.s "x", .int 1)]) (.dict false [(.s "y", .int 2)]) with
       | .ok m => .ok (.dict false (setEntry [(.s "a", .dict false [(.s "x", .int 1)])] (.s "a") m))
       | .error e => .error e) :=
  C5_union_policy.2.2.1 false false [(.s "a", .dict false [(.s "x", .int 1)])] (.s "a")
    false [(.s "x", .int 1)] false [(.s "y", .int 2)] (by decide)

theorem setaddLoop_eq : ∀ (ys xs : List Val), setaddLoop xs ys = xs ++ appendMissing xs ys := by
  intro ys
  induction ys with
  | nil => intro xs; simp [setaddLoop, appendMissing]
  | cons y rest ih =>
    intro xs
    cases hin : xs.any (fun x => pyEq x y) with
    | true =>
      have h1 : setaddLoop xs (y :: rest) = setaddLoop xs rest := by
        simp only [setaddLoop, List.foldl_cons]
        rw [if_pos hin]
      have h2 : appendMissing xs (y :: rest) = appendMissing xs rest := by
        simp only [appendMissing]
        rw [if_pos hin]
      rw [h1, ih xs, h2]
    | false =>
      have h1 : setaddLoop xs (y :: rest) = setaddLoop (xs ++ [y]) rest := by
        simp only [setaddLoop, List.foldl_cons]
        rw [if_neg (by simp [hin])]
      have h2 : appendMissing xs (y :: rest) = y :: appendMissing (xs ++ [y]) rest := by
        simp only [appendMissing]
        rw [if_neg (by simp [hin])]
      rw [h1, ih (xs ++ [y]), h2]
      simp

/-- C7: when `union_setadd` merges a shared key holding sequences of
scalars on both sides, the result at that key keeps the target sequence as
a prefix and appends exactly the source elements not already present (by
Python `==`, against the growing list), in source order; in particular
target `[1]` with source `[1, 2]` gives `[1, 2]`; and a sequence source
value over a non-sequence target value raises `TypeError`. -/
theorem C7_setadd_scalars :
    (∀ (f g : Bool) (k : Key) (xs : List Val) (y : Val) (ys : List Val),
        (∀ e ∈ xs, e.isDict = false) →
        (∀ e ∈ y :: ys, e.isDict = false) →
        union_setadd (.dict f [(k, .list xs)]) (.dict g [(k, .list (y :: ys))]) =
          .ok (.dict f [(k, .list (xs ++ appendMissing xs (y :: ys)))])) ∧
    union_setadd (.dict false [(.s "e", .list [.int 1])])
        (.dict false [(.s "e", .list [.int 1, .int 2])]) =
      .ok (.dict false [(.s "e", .list [.int 1, .int 2])]) ∧
    (∀ (f g : Bool) (k : Key) (w : Val) (ys : List Val),
        w.isList = false →
        union_setadd (.dict f [(k, w)]) (.dict g [(k, .list ys)]) = .error .typeError) := by
  refine ⟨?_, by decide, ?_⟩
  · intro f g k xs y ys hxs hys
    have h1 : union_setadd (.dict f [(k, .list xs)]) (.dict g [(k, .list (y :: ys))])
        = usItems (.dict f [(k, .list xs)]) [(k, .list (y :: ys))] := rfl
    rw [h1]
    simp only [usItems]
    have hc : containsV (.dict f [(k, .list xs)]) k = .ok true := by
      simp [containsV]
    have hg : getItem (.dict f [(k, .list xs)]) k = .ok (.list xs) := by
      simp [getItem, lookupKey, List.find?]
    have hy : y.isDict = false := hys y (List.mem_cons_self y ys)
    have hld : (Val.list (y :: ys)).isDict = false := rfl
    simp [hc, hg, hy, hld, setItem, setEntry, setaddLoop_eq, usItems]
  · intro f g k w ys hw
    have h1 : union_setadd (.dict f [(k, w)]) (.dict g [(k, .list ys)])
        = usItems (.dict f [(k, w)]) [(k, .list ys)] := rfl
    rw [h1]
    simp only [usItems]
    have hc : containsV (.dict f [(k, w)]) k = .ok true := by
      simp [containsV]
    have hg : getItem (.dict f [(k, w)]) k = .ok w := by
      simp [getItem, lookupKey, List.find?]
    have hld : (Val.list ys).isDict = false := rfl
    cases w <;> simp_all [hc, hg, hld, Val.isList, setItem]

/-- C7 witness: the set-add characterization applied to target `[1]` and
source `[1, 2]`. -/
theorem C7_witness :
    union_setadd (.dict false [(.s "e", .list [.int 1])])
        (.dict false [(.s "e", .list [.int 1, .int 2])]) =
      .ok (.dict false [(.s "e", .list ([.int 1] ++ appendMissing [.int 1] [.int 1, .int 2]))]) :=
  C7_setadd_scalars.1 false false (.s "e") [.int 1] (.int 1) [.int 2]
    (by decide) (by decide)

/-- C10: `export` and `original` mutate a plain-dict argument in place and
return the argument itself.  The first two parts show the returned value is
exactly the argument reference for every heap and every plain-dict
argument; the concrete parts show, on a heap holding a plain dict with a
wrapper child and a nested plain dict with a wrapper child, that both
projections return the argument address unchanged while the cell at that
address (and the nested plain dict cell) have had their converted children
reassigned in place (the wrapper children at addresses 1 and 3 are replaced
by fresh exported dicts at addresses 4 and 5). -/
theorem C10_projections_mutate_argument :
    (∀ (fuel : Nat) (h : Heap) (a : Nat) (es : List (Key × HVal)) (r : HVal) (h2 : Heap),
        h.store a = some (.cdict false es) →
        exportH fuel h (.ref a) = .ok (r, h2) → r = .ref a) ∧
    (∀ (fuel : Nat) (h : Heap) (a : Nat) (es : List (Key × HVal)) (r : HVal) (h2 : Heap),
        h.store a = some (.cdict false es) →
        originalH fuel h (.ref a) = .ok (r, h2) → r = .ref a) ∧
    runVal (exportH 20 exportDemoHeap (.ref 0)) = some (.ref 0) ∧
    exportDemoHeap.store 0 = some (.cdict false [(.s "w", .ref 1), (.s "p", .ref 2)]) ∧
    runStore (exportH 20 exportDemoHeap (.ref 0)) 0
      = some (.cdict false [(.s "w", .ref 4), (.s "p", .ref 2)]) ∧
    exportDemoHeap.store 2 = some (.cdict false [(.s "m", .ref 3)]) ∧
    runStore (exportH 20 exportDemoHeap (.ref 0)) 2
      = some (.cdict false [(.s "m", .ref 5)]) ∧
    runVal (originalH 20 exportDemoHeap (.ref 0)) = some (.ref 0) ∧
    runStore (originalH 20 exportDemoHeap (.ref 0)) 0
      = some (.cdict false [(.s "w", .ref 4), (.s "p", .ref 2)]) ∧
    runStore (originalH 20 exportDemoHeap (.ref 0)) 2
      = some (.cdict false [(.s "m", .ref 5)]) := by
  refine ⟨?_, ?_, by decide, by decide, by decide, by decide, by decide,
    by decide, by decide, by decide⟩
  · intro fuel h0 a es r h2 hst hrun
    cases fuel with
    | zero => simp [exportH] at hrun
    | succ fuel =>
      have hobj : isObjH h0 (.ref a) = false := by simp [isObjH, hst]
      simp only [exportH, hobj, Bool.false_eq_true, if_false, hst] at hrun
      cases hl : exportLoop fuel h0 a es with
      | ok h3 =>
        simp only [hl, Except.ok.injEq, Prod.mk.injEq] at hrun
        exact hrun.1.symm
      | error e => simp [hl] at hrun
  · intro fuel h0 a es r h2 hst hrun
    cases fuel with
    | zero => simp [originalH] at hrun
    | succ fuel =>
      have hobj : isObjH h0 (.ref a) = false := by simp [isObjH, hst]
      simp only [originalH, hobj, Bool.false_eq_true, if_false, hst] at hrun
      cases hl : originalLoop fuel h0 a es with
      | ok h3 =>
        simp only [hl, Except.ok.injEq, Prod.mk.injEq] at hrun
        exact hrun.1.symm
      | error e => simp [hl] at hrun

/-- C10 witness: the identity part applied to the concrete demo heap. -/
theorem C10_witness :
    (match exportH 20 exportDemoHeap (.ref 0) with
     | .ok (r, _) => r = .ref 0
     | .error _ => False) := by
  cases hrun : exportH 20 exportDemoHeap (.ref 0) with
  | ok p =>
    obtain ⟨r, h2⟩ := p
    simp only
    exact C10_projections_mutate_argument.1 20 exportDemoHeap 0
      [(.s "w", .ref 1), (.s "p", .ref 2)] r h2 (by decide) hrun
  | error e =>
    have hv : runVal (exportH 20 exportDemoHeap (.ref 0)) = some (.ref 0) := by decide
    rw [hrun] at hv
    simp [runVal] at hv

theorem mem_cdict_addrs {b : Bool} {es : List (Key × HVal)} {x : Nat} :
    x ∈ (Cell.cdict b es).addrs ↔ ∃ p ∈ es, x ∈ HVal.addrs (Prod.snd p) := by
  simp only [Cell.addrs, List.mem_flatten, List.mem_map]
  constructor
  · rintro ⟨l, ⟨⟨k, v⟩, hp, hl⟩, hx⟩
    exact ⟨(k, v), hp, by rw [hl]; exact hx⟩
  · rintro ⟨⟨k, v⟩, hp, hx⟩
    exact ⟨HVal.addrs v, ⟨(k, v), hp, rfl⟩, hx⟩

theorem mem_clist_addrs {l : List HVal} {x : Nat} :
    x ∈ (Cell.clist l).addrs ↔ ∃ v ∈ l, x ∈ HVal.addrs v := by
  simp [Cell.addrs, List.mem_flatten]

theorem mem_setEntry {α : Type} {es : List (Key × α)} {k : Key} {v : α} {p : Key × α}
    (h : p ∈ setEntry es k v) : p ∈ es ∨ p = (k, v) := by
  induction es with
  | nil => simpa [setEntry] using h
  | cons q rest ih =>
    obtain ⟨k0, v0⟩ := q
    by_cases hk : (k0 == k) = true
    · rw [setEntry, if_pos hk] at h
      rcases List.mem_cons.mp h with h1 | h1
      · right
        rw [h1, (by simpa using hk : k0 = k)]
      · exact Or.inl (List.mem_cons_of_mem _ h1)
    · rw [setEntry, if_neg hk] at h
      rcases List.mem_cons.mp h with h1 | h1
      · exact Or.inl (h1 ▸ List.mem_cons_self _ _)
      · rcases ih h1 with h2 | h2
        · exact Or.inl (List.mem_cons_of_mem _ h2)
        · exact Or.inr h2

theorem lookupKey_mem {α : Type} {es : List (Key × α)} {k : Key} {v : α}
    (h : lookupKey es k = some v) : ∃ p ∈ es, Prod.snd p = v := by
  induction es with
  | nil => simp [lookupKey, List.find?] at h
  | cons q rest ih =>
    obtain ⟨k0, v0⟩ := q
    by_cases hk : (k0 == k) = true
    · simp only [lookupKey, List.find?, hk] at h
      exact ⟨(k0, v0), List.mem_cons_self _ _, by simpa using h⟩
    · simp only [lookupKey, List.find?, Bool.not_eq_true] at h ih
      rw [Bool.not_eq_true] at hk
      rw [hk] at h
      rcases ih h with ⟨p, hp, hpv⟩
      exact ⟨p, List.mem_cons_of_mem _ hp, hpv⟩

theorem frameBelow_refl (h : Heap) (B : Nat) : Heap.frameBelow h h B :=
  fun _ _ => rfl

theorem frameBelow_compose {h h1 h2 : Heap} {B : Nat} (hB : B ≤ h1.next)
    (f1 : Heap.frameBelow h h1 B) (f2 : Heap.frameBelow h1 h2 h1.next) :
    Heap.frameBelow h h2 B :=
  fun x hx => (f2 x (lt_of_lt_of_le hx hB)).trans (f1 x hx)

theorem closedFrom_self {h : Heap} (hwf : h.WF) : closedFrom h h.next := by
  intro a c ha hc
  exact absurd (hwf.dom_lt a c hc) (not_lt.mpr ha)

theorem closedFrom_compose {h1 h2 : Heap} {B : Nat} (hB : B ≤ h1.next)
    (c1 : closedFrom h1 B) (c2 : closedFrom h2 h1.next)
    (fr : Heap.frameBelow h1 h2 h1.next) : closedFrom h2 B := by
  intro a c ha hst b hb
  by_cases hlt : a < h1.next
  · rw [fr a hlt] at hst
    exact c1 a c ha hst b hb
  · exact le_trans hB (c2 a c (le_of_not_lt hlt) hst b hb)

theorem write_store (h : Heap) (ad : Nat) (c : Cell) (x : Nat) :
    (h.write ad c).store x = if x = ad then some c else h.store x := rfl

theorem write_next (h : Heap) (ad : Nat) (c : Cell) : (h.write ad c).next = h.next := rfl

theorem write_frameBelow (h : Heap) (ad : Nat) (c : Cell) (B : Nat) (hB : B ≤ ad) :
    Heap.frameBelow h (h.write ad c) B := by
  intro x hx
  rw [write_store, if_neg (Nat.ne_of_lt (lt_of_lt_of_le hx hB))]

theorem write_WF {h : Heap} (hwf : h.WF) (ad : Nat) (c : Cell) (had : ad < h.next)
    (hc : ∀ b ∈ c.addrs, b < h.next) : (h.write ad c).WF := by
  constructor
  · intro a c2 hst
    rw [write_store] at hst
    by_cases ha : a = ad
    · rw [ha, write_next]; exact had
    · rw [if_neg ha] at hst
      rw [write_next]
      exact hwf.dom_lt a c2 hst
  · intro a c2 hst b hb
    rw [write_store] at hst
    rw [write_next]
    by_cases ha : a = ad
    · rw [if_pos ha] at hst
      injection hst with hst
      exact hc b (hst ▸ hb)
    · rw [if_neg ha] at hst
      exact hwf.closed a c2 hst b hb

theorem write_closedFrom {h : Heap} {B : Nat} (hcl : closedFrom h B) (ad : Nat) (c : Cell)
    (hc : ∀ b ∈ c.addrs, B ≤ b) : closedFrom (h.write ad c) B := by
  intro a c2 ha hst b hb
  rw [write_store] at hst
  by_cases hax : a = ad
  · rw [if_pos hax] at hst
    injection hst with hst
    exact hc b (hst ▸ hb)
  · rw [if_neg hax] at hst
    exact hcl a c2 ha hst b hb

theorem alloc_store (h : Heap) (c : Cell) (x : Nat) :
    ((h.alloc c).2).store x = if x = h.next then some c else h.store x := rfl

theorem alloc_next (h : Heap) (c : Cell) : ((h.alloc c).2).next = h.next + 1 := rfl

theorem alloc_fst (h : Heap) (c : Cell) : (h.alloc c).1 = h.next := rfl

theorem alloc_frameBelow (h : Heap) (c : Cell) :
    Heap.frameBelow h (h.alloc c).2 h.next := by
  intro x hx
  rw [alloc_store, if_neg (Nat.ne_of_lt hx)]

theorem alloc_WF {h : Heap} (hwf : h.WF) (c : Cell)
    (hc : ∀ b ∈ c.addrs, b < h.next) : ((h.alloc c).2).WF := by
  constructor
  · intro a c2 hst
    rw [alloc_store] at hst
    rw [alloc_next]
    by_cases ha : a = h.next
    · omega
    · rw [if_neg ha] at hst
      exact Nat.lt_succ_of_lt (hwf.dom_lt a c2 hst)
  · intro a c2 hst b hb
    rw [alloc_store] at hst
    rw [alloc_next]
    by_cases ha : a = h.next
    · rw [if_pos ha] at hst
      injection hst with hst
      exact Nat.lt_succ_of_lt (hc b (hst ▸ hb))
    · rw [if_neg ha] at hst
      exact Nat.lt_succ_of_lt (hwf.closed a c2 hst b hb)

theorem alloc_closedFrom {h : Heap} {B : Nat} (hcl : closedFrom h B) (c : Cell)
    (hc : ∀ b ∈ c.addrs, B ≤ b) : closedFrom (h.alloc c).2 B := by
  intro a c2 ha hst b hb
  rw [alloc_store] at hst
  by_cases hax : a = h.next
  · rw [if_pos hax] at hst
    injection hst with hst
    exact hc b (hst ▸ hb)
  · rw [if_neg hax] at hst
    exact hcl a c2 ha hst b hb

theorem write_wrapperFree {h : Heap} (hwfr : WrapperFree h) {c : Cell}
    (hc : Cell.isWrapper c = false) (ad : Nat) : WrapperFree (h.write ad c) := by
  intro a c2 hst
  rw [write_store] at hst
  by_cases ha : a = ad
  · rw [if_pos ha] at hst
    injection hst with hst
    rw [← hst]
    exact hc
  · rw [if_neg ha] at hst
    exact hwfr a c2 hst

theorem alloc_wrapperFree {h : Heap} (hwfr : WrapperFree h) {c : Cell}
    (hc : Cell.isWrapper c = false) : WrapperFree (h.alloc c).2 := by
  intro a c2 hst
  rw [alloc_store] at hst
  by_cases ha : a = h.next
  · rw [if_pos ha] at hst
    injection hst with hst
    rw [← hst]
    exact hc
  · rw [if_neg ha] at hst
    exact hwfr a c2 hst

theorem reaches_lt {h : Heap} {root : HVal} {y : Nat} (hwf : h.WF)
    (hroot : ∀ x ∈ root.addrs, x < h.next) (hr : Reaches h root y) : y < h.next := by
  induction hr with
  | base hb => exact hroot _ hb
  | step hra hst hb ih => exact hwf.closed _ _ hst _ hb

theorem reaches_ge {h : Heap} {root : HVal} {y B : Nat} (hcl : closedFrom h B)
    (hroot : ∀ x ∈ root.addrs, B ≤ x) (hr : Reaches h root y) : B ≤ y := by
  induction hr with
  | base hb => exact hroot _ hb
  | step hra hst hb ih => exact hcl _ _ ih hst _ hb

theorem setItemH_ok {h : Heap} {d1 : HVal} {k : Key} {v : HVal} {h2 : Heap}
    (hs : setItemH h d1 k v = .ok h2) :
    ∃ ad cOld cNew, d1 = .ref ad ∧ h.store ad = some cOld ∧
      h2 = h.write ad cNew ∧ Cell.isWrapper cNew = Cell.isWrapper cOld ∧
      ∀ b ∈ Cell.addrs cNew, b ∈ Cell.addrs cOld ∨ b ∈ HVal.addrs v := by
  cases d1 with
  | atom a => simp [setItemH] at hs
  | ref ad =>
    cases hst : h.store ad with
    | none => simp [setItemH, hst] at hs
    | some c =>
      cases c with
      | cdict b es =>
        simp only [setItemH, hst] at hs
        injection hs with hs
        refine ⟨ad, .cdict b es, .cdict b (setEntry es k v), rfl, hst, hs.symm,
          by cases b <;> rfl, ?_⟩
        intro x hx
        rcases mem_cdict_addrs.mp hx with ⟨p, hp, hxp⟩
        rcases mem_setEntry hp with h1 | h1
        · exact Or.inl (mem_cdict_addrs.mpr ⟨p, h1, hxp⟩)
        · right
          rw [h1] at hxp
          exact hxp
      | clist l =>
        cases k with
        | s t => simp [setItemH, hst] at hs
        | n i =>
          simp only [setItemH, hst] at hs
          by_cases hi : i < l.length
          · rw [if_pos hi] at hs
            injection hs with hs
            refine ⟨ad, .clist l, .clist (l.set i v), rfl, hst, hs.symm, rfl, ?_⟩
            intro x hx
            rcases mem_clist_addrs.mp hx with ⟨e, he, hxe⟩
            rcases List.mem_or_eq_of_mem_set he with h1 | h1
            · exact Or.inl (mem_clist_addrs.mpr ⟨e, h1, hxe⟩)
            · right
              rw [h1] at hxe
              exact hxe
          · rw [if_neg hi] at hs
            simp at hs

theorem getItemH_addrs {h : Heap} {d1 : HVal} {k : Key} {sub : HVal} {B : Nat}
    (hg : getItemH h d1 k = .ok sub) (hwf : h.WF) (hcl : closedFrom h B)
    (hd1 : ∀ x ∈ d1.addrs, B ≤ x) :
    ∀ x ∈ sub.addrs, B ≤ x ∧ x < h.next := by
  cases d1 with
  | atom a =>
    cases a with
    | anull => simp [getItemH] at hg
    | aint i => simp [getItemH] at hg
    | astr t =>
      cases k with
      | s t2 => simp [getItemH] at hg
      | n i =>
        simp only [getItemH] at hg
        cases hc : t.data.get? i with
        | none => rw [hc] at hg; simp at hg
        | some ch =>
          rw [hc] at hg
          injection hg with hg
          intro x hx
          rw [← hg] at hx
          simp [HVal.addrs] at hx
  | ref a =>
    have haB : B ≤ a := hd1 a (by simp [HVal.addrs])
    cases hst : h.store a with
    | none => simp [getItemH, hst] at hg
    | some c =>
      cases c with
      | cdict b es =>
        simp only [getItemH, hst] at hg
        cases hl : lookupKey es k with
        | none => rw [hl] at hg; simp at hg
        | some w =>
          rw [hl] at hg
          injection hg with hg
          subst hg
          intro x hx
          have hmem : x ∈ (Cell.cdict b es).addrs := by
            rcases lookupKey_mem hl with ⟨p, hp, hpv⟩
            exact mem_cdict_addrs.mpr ⟨p, hp, by rw [hpv]; exact hx⟩
          exact ⟨hcl a _ haB hst x hmem, hwf.closed a _ hst x hmem⟩
      | clist l =>
        cases k with
        | s t => simp [getItemH, hst] at hg
        | n i =>
          simp only [getItemH, hst] at hg
          cases hc : l.get? i with
          | none => rw [hc] at hg; simp at hg
          | some w =>
            rw [hc] at hg
            injection hg with hg
            subst hg
            intro x hx
            have hmem : x ∈ (Cell.clist l).addrs :=
              mem_clist_addrs.mpr ⟨w, List.get?_mem hc, hx⟩
            exact ⟨hcl a _ haB hst x hmem, hwf.closed a _ hst x hmem⟩

theorem deepcopy_spec : ∀ (fuel : Nat),
    (∀ (h : Heap) (v : HVal) (v2 : HVal) (h2 : Heap),
      deepcopyH fuel h v = .ok (v2, h2) → h.WF → WrapperFree h →
      (∀ x ∈ v.addrs, x < h.next) →
      h.next ≤ h2.next ∧ Heap.frameBelow h h2 h.next ∧ h2.WF ∧
        (∀ x ∈ v2.addrs, h.next ≤ x ∧ x < h2.next) ∧ closedFrom h2 h.next ∧
        WrapperFree h2) ∧
    (∀ (h : Heap) (l : List HVal) (l2 : List HVal) (h2 : Heap),
      deepcopyHList fuel h l = .ok (l2, h2) → h.WF → WrapperFree h →
      (∀ v ∈ l, ∀ x ∈ HVal.addrs v, x < h.next) →
      h.next ≤ h2.next ∧ Heap.frameBelow h h2 h.next ∧ h2.WF ∧
        (∀ v2 ∈ l2, ∀ x ∈ HVal.addrs v2, h.next ≤ x ∧ x < h2.next) ∧ closedFrom h2 h.next ∧
        WrapperFree h2) ∧
    (∀ (h : Heap) (es : List (Key × HVal)) (es2 : List (Key × HVal)) (h2 : Heap),
      deepcopyHEntries fuel h es = .ok (es2, h2) → h.WF → WrapperFree h →
      (∀ p ∈ es, ∀ x ∈ HVal.addrs (Prod.snd p), x < h.next) →
      h.next ≤ h2.next ∧ Heap.frameBelow h h2 h.next ∧ h2.WF ∧
        (∀ p2 ∈ es2, ∀ x ∈ HVal.addrs (Prod.snd p2), h.next ≤ x ∧ x < h2.next) ∧
        closedFrom h2 h.next ∧ WrapperFree h2) := by
  intro fuel
  induction fuel with
  | zero =>
    refine ⟨?_, ?_, ?_⟩
    · intro h v v2 h2 hrun
      simp [deepcopyH] at hrun
    · intro h l l2 h2 hrun
      simp [deepcopyHList] at hrun
    · intro h es es2 h2 hrun
      simp [deepcopyHEntries] at hrun
  | succ fuel ih =>
    obtain ⟨ihV, ihL, ihE⟩ := ih
    refine ⟨?_, ?_, ?_⟩
    · intro h v v2 h2 hrun hwf hwfree hv
      cases v with
      | atom a =>
        simp only [deepcopyH] at hrun
        injection hrun with hp
        injection hp with h1 h2eq
        subst h1
        subst h2eq
        refine ⟨le_refl _, frameBelow_refl _ _, hwf, ?_, closedFrom_self hwf, hwfree⟩
        intro x hx
        simp [HVal.addrs] at hx
      | ref a =>
        have halt : a < h.next := hv a (by simp [HVal.addrs])
        cases hst : h.store a with
        | none => simp [deepcopyH, hst] at hrun
        | some c =>
          cases c with
          | clist l =>
            simp only [deepcopyH, hst] at hrun
            cases hl : deepcopyHList fuel h l with
            | error e => simp [hl] at hrun
            | ok p =>
              obtain ⟨l2, hm⟩ := p
              simp only [hl] at hrun
              injection hrun with hp
              injection hp with h1 h2eq
              subst h1
              subst h2eq
              have hlv : ∀ w ∈ l, ∀ x ∈ HVal.addrs w, x < h.next := by
                intro w hw x hx
                exact hwf.closed a _ hst x (mem_clist_addrs.mpr ⟨w, hw, hx⟩)
              obtain ⟨m1, m2, m3, m4, m5, m6⟩ := ihL h l l2 hm hl hwf hwfree hlv
              have hcell : ∀ b ∈ (Cell.clist l2).addrs, h.next ≤ b ∧ b < hm.next := by
                intro b hb
                rcases mem_clist_addrs.mp hb with ⟨w, hw, hbw⟩
                exact m4 w hw b hbw
              refine ⟨?_, ?_, ?_, ?_, ?_, ?_⟩
              · rw [alloc_next]; omega
              · exact frameBelow_compose m1 m2 (alloc_frameBelow hm _)
              · exact alloc_WF m3 _ (fun b hb => (hcell b hb).2)
              · intro x hx
                simp only [HVal.addrs, alloc_fst, List.mem_singleton] at hx
                subst hx
                rw [alloc_next]
                omega
              · exact alloc_closedFrom m5 _ (fun b hb => (hcell b hb).1)
              · exact alloc_wrapperFree m6 rfl
          | cdict bf es =>
            cases bf with
            | true =>
              have hbad := hwfree a _ hst
              simp [Cell.isWrapper] at hbad
            | false =>
              simp only [deepcopyH, hst] at hrun
              cases hl : deepcopyHEntries fuel h es with
              | error e => simp [hl] at hrun
              | ok p =>
                obtain ⟨es2, hm⟩ := p
                rw [hl] at hrun
                injection hrun with hp
                injection hp with h1 h2eq
                subst h1
                subst h2eq
                have hev : ∀ q ∈ es, ∀ x ∈ HVal.addrs (Prod.snd q), x < h.next := by
                  intro q hq x hx
                  exact hwf.closed a _ hst x (mem_cdict_addrs.mpr ⟨q, hq, hx⟩)
                obtain ⟨m1, m2, m3, m4, m5, m6⟩ := ihE h es es2 hm hl hwf hwfree hev
                have hcell : ∀ b ∈ (Cell.cdict false es2).addrs, h.next ≤ b ∧ b < hm.next := by
                  intro b hb
                  rcases mem_cdict_addrs.mp hb with ⟨q, hq, hbq⟩
                  exact m4 q hq b hbq
                refine ⟨?_, ?_, ?_, ?_, ?_, ?_⟩
                · rw [alloc_next]; omega
                · exact frameBelow_compose m1 m2 (alloc_frameBelow hm _)
                · exact alloc_WF m3 _ (fun b hb => (hcell b hb).2)
                · intro x hx
                  simp only [HVal.addrs, alloc_fst, List.mem_singleton] at hx
                  subst hx
                  rw [alloc_next]
                  omega
                · exact alloc_closedFrom m5 _ (fun b hb => (hcell b hb).1)
                · exact alloc_wrapperFree m6 rfl
    · intro h l l2 h2 hrun hwf hwfree hl
      cases l with
      | nil =>
        simp only [deepcopyHList] at hrun
        injection hrun with hp
        injection hp with h1 h2eq
        subst h1
        subst h2eq
        refine ⟨le_refl _, frameBelow_refl _ _, hwf, ?_, closedFrom_self hwf, hwfree⟩
        intro v2 hv2
        simp at hv2
      | cons w rest =>
        simp only [deepcopyHList] at hrun
        cases hw : deepcopyH fuel h w with
        | error e => simp [hw] at hrun
        | ok p =>
          obtain ⟨w2, hA⟩ := p
          simp only [hw] at hrun
          cases hr : deepcopyHList fuel hA rest with
          | error e => simp [hr] at hrun
          | ok q =>
            obtain ⟨rest2, hB⟩ := q
            simp only [hr] at hrun
            injection hrun with hp
            injection hp with h1 h2eq
            subst h1
            subst h2eq
            obtain ⟨a1, a2, a3, a4, a5, a6⟩ :=
              ihV h w w2 hA hw hwf hwfree (hl w (List.mem_cons_self _ _))
            have hrest : ∀ v ∈ rest, ∀ x ∈ HVal.addrs v, x < hA.next := by
              intro v hv x hx
              exact lt_of_lt_of_le (hl v (List.mem_cons_of_mem _ hv) x hx) a1
            obtain ⟨b1, b2, b3, b4, b5, b6⟩ := ihL hA rest rest2 hB hr a3 a6 hrest
            refine ⟨le_trans a1 b1, frameBelow_compose a1 a2 b2, b3, ?_,
              closedFrom_compose a1 a5 b5 b2, b6⟩
            intro v2 hv2 x hx
            rcases List.mem_cons.mp hv2 with h1 | h1
            · have := a4 x (h1 ▸ hx)
              exact ⟨this.1, lt_of_lt_of_le this.2 b1⟩
            · have := b4 v2 h1 x hx
              exact ⟨le_trans a1 this.1, this.2⟩
    · intro h es es2 h2 hrun hwf hwfree hes
      cases es with
      | nil =>
        simp only [deepcopyHEntries] at hrun
        injection hrun with hp
        injection hp with h1 h2eq
        subst h1
        subst h2eq
        refine ⟨le_refl _, frameBelow_refl _ _, hwf, ?_, closedFrom_self hwf, hwfree⟩
        intro p2 hp2
        simp at hp2
      | cons q rest =>
        obtain ⟨k, w⟩ := q
        simp only [deepcopyHEntries] at hrun
        cases hw : deepcopyH fuel h w with
        | error e => simp [hw] at hrun
        | ok p =>
          obtain ⟨w2, hA⟩ := p
          simp only [hw] at hrun
          cases hr : deepcopyHEntries fuel hA rest with
          | error e => simp [hr] at hrun
          | ok q2 =>
            obtain ⟨rest2, hB⟩ := q2
            simp only [hr] at hrun
            injection hrun with hp
            injection hp with h1 h2eq
            subst h1
            subst h2eq
            obtain ⟨a1, a2, a3, a4, a5, a6⟩ :=
              ihV h w w2 hA hw hwf hwfree (hes (k, w) (List.mem_cons_self _ _))
            have hrest : ∀ p ∈ rest, ∀ x ∈ HVal.addrs (Prod.snd p), x < hA.next := by
              intro p hp x hx
              exact lt_of_lt_of_le (hes p (List.mem_cons_of_mem _ hp) x hx) a1
            obtain ⟨b1, b2, b3, b4, b5, b6⟩ := ihE hA rest rest2 hB hr a3 a6 hrest
            refine ⟨le_trans a1 b1, frameBelow_compose a1 a2 b2, b3, ?_,
              closedFrom_compose a1 a5 b5 b2, b6⟩
            intro p2 hp2 x hx
            rcases List.mem_cons.mp hp2 with h1 | h1
            · have := a4 x (by rw [h1] at hx; exact hx)
              exact ⟨this.1, lt_of_lt_of_le this.2 b1⟩
            · have := b4 p2 h1 x hx
              exact ⟨le_trans a1 this.1, this.2⟩

/-- Frame specification of the `_union_copy` loop: given a base `B` with
`B <= h.next`, a first argument whose addresses lie in the closed region
`[B, h.next)` and a second argument living anywhere in the heap, a
successful run returns the first argument itself, allocates only fresh
addresses, writes nothing below `B`, preserves well-formedness and keeps
the region from `B` up closed. -/
theorem ucopy_spec : ∀ (fuel : Nat),
    (∀ (h : Heap) (d1 d2 r : HVal) (h2 : Heap) (B : Nat),
      uCopyAux fuel h d1 d2 = .ok (r, h2) → h.WF → B ≤ h.next → closedFrom h B →
      WrapperFree h →
      (∀ x ∈ d1.addrs, B ≤ x ∧ x < h.next) → (∀ x ∈ d2.addrs, x < h.next) →
      r = d1 ∧ h.next ≤ h2.next ∧ Heap.frameBelow h h2 B ∧ h2.WF ∧ closedFrom h2 B ∧
      WrapperFree h2) ∧
    (∀ (h : Heap) (d1 : HVal) (es : List (Key × HVal)) (r : HVal) (h2 : Heap) (B : Nat),
      uCopyItems fuel h d1 es = .ok (r, h2) → h.WF → B ≤ h.next → closedFrom h B →
      WrapperFree h →
      (∀ x ∈ d1.addrs, B ≤ x ∧ x < h.next) →
      (∀ p ∈ es, ∀ x ∈ HVal.addrs (Prod.snd p), x < h.next) →
      r = d1 ∧ h.next ≤ h2.next ∧ Heap.frameBelow h h2 B ∧ h2.WF ∧ closedFrom h2 B ∧
      WrapperFree h2) := by
  intro fuel
  induction fuel with
  | zero =>
    constructor
    · intro h d1 d2 r h2 B hrun
      simp [uCopyAux] at hrun
    · intro h d1 es r h2 B hrun
      simp [uCopyItems] at hrun
  | succ fuel ih =>
    obtain ⟨ihA, ihI⟩ := ih
    constructor
    · intro h d1 d2 r h2 B hrun hwf hB hcl hwfr hd1 hd2
      cases d2 with
      | atom a => simp [uCopyAux] at hrun
      | ref a2 =>
        cases hst : h.store a2 with
        | none => simp [uCopyAux, hst] at hrun
        | some c =>
          cases c with
          | clist l => simp [uCopyAux, hst] at hrun
          | cdict bf es2 =>
            simp only [uCopyAux, hst] at hrun
            have hes : ∀ p ∈ es2, ∀ x ∈ HVal.addrs (Prod.snd p), x < h.next := by
              intro p hp x hx
              exact hwf.closed a2 _ hst x (mem_cdict_addrs.mpr ⟨p, hp, hx⟩)
            exact ihI h d1 es2 r h2 B hrun hwf hB hcl hwfr hd1 hes
    · intro h d1 es r h2 B hrun hwf hB hcl hwfr hd1 hes
      cases es with
      | nil =>
        simp only [uCopyItems] at hrun
        injection hrun with hp
        injection hp with h1 h2eq
        subst h2eq
        exact ⟨h1.symm, le_refl _, frameBelow_refl _ _, hwf, hcl, hwfr⟩
      | cons q rest =>
        obtain ⟨k, v⟩ := q
        simp only [uCopyItems] at hrun
        cases hc : containsH h d1 k with
        | error e => simp [hc] at hrun
        | ok cb =>
          simp only [hc] at hrun
          have hv : ∀ x ∈ v.addrs, x < h.next := by
            intro x hx
            exact hes (k, v) (List.mem_cons_self _ _) x hx
          have hrest : ∀ p ∈ rest, ∀ x ∈ HVal.addrs (Prod.snd p), x < h.next := by
            intro p hp x hx
            exact hes p (List.mem_cons_of_mem _ hp) x hx
          by_cases hcd : (cb && isDictH h v) = true
          · rw [if_pos hcd] at hrun
            cases hg : getItemH h d1 k with
            | error e => simp [hg] at hrun
            | ok sub =>
              simp only [hg] at hrun
              cases hrec : uCopyAux fuel h sub v with
              | error e => simp [hrec] at hrun
              | ok p =>
                obtain ⟨m, hA⟩ := p
                simp only [hrec] at hrun
                cases hset : setItemH hA d1 k m with
                | error e => simp [hset] at hrun
                | ok hB2 =>
                  simp only [hset] at hrun
                  have hsub := getItemH_addrs hg hwf hcl (fun x hx => (hd1 x hx).1)
                  obtain ⟨e1, e2, e3, e4, e5, e6⟩ := ihA h sub v m hA B hrec hwf hB hcl hwfr hsub hv
                  obtain ⟨ad, cOld, cNew, hdref, hstOld, hwrite, hiso, hnewad⟩ := setItemH_ok hset
                  have had : B ≤ ad ∧ ad < h.next := hd1 ad (by rw [hdref]; simp [HVal.addrs])
                  have hclt : ∀ b ∈ Cell.addrs cNew, b < hA.next := by
                    intro b hb
                    rcases hnewad b hb with h1 | h1
                    · exact e4.closed ad cOld hstOld b h1
                    · rw [e1] at h1
                      exact lt_of_lt_of_le (hsub b h1).2 e2
                  have hcge : ∀ b ∈ Cell.addrs cNew, B ≤ b := by
                    intro b hb
                    rcases hnewad b hb with h1 | h1
                    · exact e5 ad cOld had.1 hstOld b h1
                    · rw [e1] at h1
                      exact (hsub b h1).1
                  have hadA : ad < hA.next := lt_of_lt_of_le had.2 e2
                  have hWFB : hB2.WF := by
                    rw [hwrite]
                    exact write_WF e4 ad cNew hadA hclt
                  have hclB : closedFrom hB2 B := by
                    rw [hwrite]
                    exact write_closedFrom e5 ad cNew hcge
                  have hfrB : Heap.frameBelow hA hB2 B := by
                    rw [hwrite]
                    exact write_frameBelow hA ad cNew B had.1
                  have hcw : Cell.isWrapper cNew = false := by
                    rw [hiso]
                    exact e6 ad cOld hstOld
                  have hWfrB : WrapperFree hB2 := by
                    rw [hwrite]
                    exact write_wrapperFree e6 hcw ad
                  have hnx : hB2.next = hA.next := hwrite.symm ▸ write_next hA ad cNew
                  have hd1B : ∀ x ∈ d1.addrs, B ≤ x ∧ x < hB2.next := by
                    intro x hx
                    rw [hnx]
                    exact ⟨(hd1 x hx).1, lt_of_lt_of_le (hd1 x hx).2 e2⟩
                  have hrestB : ∀ p ∈ rest, ∀ x ∈ HVal.addrs (Prod.snd p), x < hB2.next := by
                    intro p hp x hx
                    rw [hnx]
                    exact lt_of_lt_of_le (hrest p hp x hx) e2
                  have hBB : B ≤ hB2.next := by
                    rw [hnx]
                    exact le_trans hB e2
                  obtain ⟨f1, f2, f3, f4, f5, f6⟩ :=
                    ihI hB2 d1 rest r h2 B hrun hWFB hBB hclB hWfrB hd1B hrestB
                  refine ⟨f1, ?_, ?_, f4, f5, f6⟩
                  · rw [hnx] at f2
                    omega
                  · intro x hx
                    exact ((f3 x hx).trans (hfrB x hx)).trans (e3 x hx)
          · rw [if_neg hcd] at hrun
            cases hdc : deepcopyH fuel h v with
            | error e => simp [hdc] at hrun
            | ok p =>
              obtain ⟨v2, hA⟩ := p
              simp only [hdc] at hrun
              cases hset : setItemH hA d1 k v2 with
              | error e => simp [hset] at hrun
              | ok hB2 =>
                simp only [hset] at hrun
                obtain ⟨g1, g2, g3, g4, g5, g6⟩ :=
                  (deepcopy_spec fuel).1 h v v2 hA hdc hwf hwfr hv
                have e2 : h.next ≤ hA.next := g1
                have e3 : Heap.frameBelow h hA B := fun x hx => g2 x (lt_of_lt_of_le hx hB)
                have e4 : hA.WF := g3
                have e5 : closedFrom hA B := closedFrom_compose hB hcl g5 g2
                have e6 : WrapperFree hA := g6
                obtain ⟨ad, cOld, cNew, hdref, hstOld, hwrite, hiso, hnewad⟩ := setItemH_ok hset
                have had : B ≤ ad ∧ ad < h.next := hd1 ad (by rw [hdref]; simp [HVal.addrs])
                have hclt : ∀ b ∈ Cell.addrs cNew, b < hA.next := by
                  intro b hb
                  rcases hnewad b hb with h1 | h1
                  · exact e4.closed ad cOld hstOld b h1
                  · exact (g4 b h1).2
                have hcge : ∀ b ∈ Cell.addrs cNew, B ≤ b := by
                  intro b hb
                  rcases hnewad b hb with h1 | h1
                  · exact e5 ad cOld had.1 hstOld b h1
                  · exact le_trans hB (g4 b h1).1
                have hadA : ad < hA.next := lt_of_lt_of_le had.2 e2
                have hWFB : hB2.WF := by
                  rw [hwrite]
                  exact write_WF e4 ad cNew hadA hclt
                have hclB : closedFrom hB2 B := by
                  rw [hwrite]
                  exact write_closedFrom e5 ad cNew hcge
                have hfrB : Heap.frameBelow hA hB2 B := by
                  rw [hwrite]
                  exact write_frameBelow hA ad cNew B had.1
                have hcw : Cell.isWrapper cNew = false := by
                  rw [hiso]
                  exact e6 ad cOld hstOld
                have hWfrB : WrapperFree hB2 := by
                  rw [hwrite]
                  exact write_wrapperFree e6 hcw ad
                have hnx : hB2.next = hA.next := hwrite.symm ▸ write_next hA ad cNew
                have hd1B : ∀ x ∈ d1.addrs, B ≤ x ∧ x < hB2.next := by
                  intro x hx
                  rw [hnx]
                  exact ⟨(hd1 x hx).1, lt_of_lt_of_le (hd1 x hx).2 e2⟩
                have hrestB : ∀ p ∈ rest, ∀ x ∈ HVal.addrs (Prod.snd p), x < hB2.next := by
                  intro p hp x hx
                  rw [hnx]
                  exact lt_of_lt_of_le (hrest p hp x hx) e2
                have hBB : B ≤ hB2.next := by
                  rw [hnx]
                  exact le_trans hB e2
                obtain ⟨f1, f2, f3, f4, f5, f6⟩ :=
                  ihI hB2 d1 rest r h2 B hrun hWFB hBB hclB hWfrB hd1B hrestB
                refine ⟨f1, ?_, ?_, f4, f5, f6⟩
                · rw [hnx] at f2
                  omega
                · intro x hx
                  exact ((f3 x hx).trans (hfrB x hx)).trans (e3 x hx)

/-- Well-formedness of a heap assembled from a closed list of cells. -/
theorem ofCells_WF (cs : List Cell)
    (hcl : ∀ c ∈ cs, ∀ b ∈ Cell.addrs c, b < cs.length) : (Heap.ofCells cs).WF := by
  constructor
  · intro a c hst
    by_cases hlt : a < cs.length
    · exact hlt
    · have hn : cs.get? a = Option.none := List.get?_eq_none.mpr (le_of_not_lt hlt)
      rw [show (Heap.ofCells cs).store a = cs.get? a from rfl, hn] at hst
      exact absurd hst (by simp)
  · intro a c hst b hb
    show b < cs.length
    exact hcl c (List.get?_mem hst) b hb

/-- A heap assembled from a list of non-wrapper cells is wrapper-free. -/
theorem ofCells_wrapperFree (cs : List Cell)
    (hcl : ∀ c ∈ cs, Cell.isWrapper c = false) : WrapperFree (Heap.ofCells cs) := by
  intro a c hst
  exact hcl c (List.get?_mem hst)

/-- C6 (corrected): two failure modes of the claim.  First, `union_copy`
does not return a result for every pair of inputs: merging a mapping
source entry into a scalar target entry raises `TypeError` inside
`_union_copy` (the `key in dict1` membership test on the scalar fails) —
concretely, `union_copy(("k": 5), ("k": ("a": 1)))` raises `TypeError` on
a well-formed heap.  Second, when an input holds a `Dict` wrapper value,
the result is not detached from it: `copy.deepcopy` dispatches to
`Dict.__deepcopy__`, which is `Obj(**self.__original__())` and passes
list values through by reference, so for `a = ("w": Dict(("x": [1])))`
and empty `b` the run succeeds and the result still reaches the list cell
(address 2) of the untouched input `a`. -/
theorem C6_counterexample :
    Heap.WF unionCopyErrHeap ∧
    runErr (unionCopyH 20 unionCopyErrHeap (.ref 0) (.ref 1)) = some PyErr.typeError ∧
    Heap.WF unionCopyShareHeap ∧
    Reaches unionCopyShareHeap (.ref 0) 2 ∧
    (match unionCopyH 20 unionCopyShareHeap (.ref 0) (.ref 3) with
     | .ok (r, h2) => Reaches h2 r 2 ∧ h2.store 2 = unionCopyShareHeap.store 2
     | .error _ => False) := by
  refine ⟨ofCells_WF _ (by decide), by decide, ofCells_WF _ (by decide), ?_, ?_⟩
  · exact Reaches.step
      (Reaches.step (Reaches.base (by decide)) (by decide : unionCopyShareHeap.store 0
        = some (.cdict false [(.s "w", .ref 1)])) (by decide))
      (by decide : unionCopyShareHeap.store 1 = some (.cdict true [(.s "x", .ref 2)]))
      (by decide)
  · cases hrun : unionCopyH 20 unionCopyShareHeap (.ref 0) (.ref 3) with
    | ok p =>
      obtain ⟨r, h2⟩ := p
      have hv : runVal (unionCopyH 20 unionCopyShareHeap (.ref 0) (.ref 3))
          = some (.ref 5) := by decide
      have hs5 : runStore (unionCopyH 20 unionCopyShareHeap (.ref 0) (.ref 3)) 5
          = some (.cdict false [(.s "w", .ref 4)]) := by decide
      have hs4 : runStore (unionCopyH 20 unionCopyShareHeap (.ref 0) (.ref 3)) 4
          = some (.cdict true [(.s "x", .ref 2)]) := by decide
      have hs2 : runStore (unionCopyH 20 unionCopyShareHeap (.ref 0) (.ref 3)) 2
          = some (.clist [.atom (.aint 1)]) := by decide
      rw [hrun] at hv hs5 hs4 hs2
      simp only [runVal, runStore, Option.some.injEq] at hv hs5 hs4 hs2
      subst hv
      refine ⟨?_, ?_⟩
      · exact Reaches.step
          (Reaches.step (Reaches.base (by decide)) hs5 (by decide))
          hs4 (by decide)
      · rw [hs2]
        decide
    | error e =>
      have hv : runErr (unionCopyH 20 unionCopyShareHeap (.ref 0) (.ref 3))
          = Option.none := by decide
      rw [hrun] at hv
      simp [runErr] at hv

/-- C6 (amended): on a wrapper-free heap — no `Dict` instances among the
inputs, so `copy.deepcopy` never dispatches to the sharing
`Dict.__deepcopy__` — whenever `union_copy` returns it leaves every cell
reachable from either input exactly as it was, and the result reaches no
address reachable from either input, so mutating the result cannot alter
the inputs.  The `TypeError` escape and the wrapper list sharing of the
counterexample are the deviations from the claim. -/
theorem C6_union_copy_frame :
    ∀ (fuel : Nat) (h : Heap) (a b r : HVal) (h2 : Heap),
      unionCopyH fuel h a b = .ok (r, h2) → h.WF → WrapperFree h →
      (∀ x ∈ a.addrs, x < h.next) → (∀ x ∈ b.addrs, x < h.next) →
      (∀ x, Reaches h a x → h2.store x = h.store x) ∧
      (∀ x, Reaches h b x → h2.store x = h.store x) ∧
      (∀ x, Reaches h2 r x → ¬ Reaches h a x) ∧
      (∀ x, Reaches h2 r x → ¬ Reaches h b x) := by
  intro fuel h a b r h2 hrun hwf hwfr ha hb
  cases hdc : deepcopyH fuel h a with
  | error e => simp [unionCopyH, hdc] at hrun
  | ok p =>
    obtain ⟨c, hC⟩ := p
    simp only [unionCopyH, hdc] at hrun
    obtain ⟨g1, g2, g3, g4, g5, g6⟩ := (deepcopy_spec fuel).1 h a c hC hdc hwf hwfr ha
    have hbv : ∀ x ∈ b.addrs, x < hC.next := fun x hx => lt_of_lt_of_le (hb x hx) g1
    obtain ⟨u1, u2, u3, u4, u5, u6⟩ :=
      (ucopy_spec fuel).1 hC c b r h2 h.next hrun g3 g1 g5 g6 g4 hbv
    have hframe : ∀ x, x < h.next → h2.store x = h.store x :=
      fun x hx => (u3 x hx).trans (g2 x hx)
    have hrge : ∀ x, Reaches h2 r x → h.next ≤ x := by
      intro x hr
      exact reaches_ge u5 (fun y hy => (g4 y (u1 ▸ hy)).1) hr
    refine ⟨?_, ?_, ?_, ?_⟩
    · intro x hr
      exact hframe x (reaches_lt hwf ha hr)
    · intro x hr
      exact hframe x (reaches_lt hwf hb hr)
    · intro x hr hcontra
      exact absurd (reaches_lt hwf ha hcontra) (not_lt.mpr (hrge x hr))
    · intro x hr hcontra
      exact absurd (reaches_lt hwf hb hcontra) (not_lt.mpr (hrge x hr))

/-- Witness for C6 on the docstring example heap: the run succeeds and the
cell holding the first input is untouched in the final heap. -/
theorem C6_witness :
    (match unionCopyH 30 unionCopyDemoHeap (.ref 0) (.ref 3) with
     | .ok (_, h2) => h2.store 0 = unionCopyDemoHeap.store 0
     | .error _ => False) := by
  cases hrun : unionCopyH 30 unionCopyDemoHeap (.ref 0) (.ref 3) with
  | ok p =>
    obtain ⟨r, h2⟩ := p
    exact (C6_union_copy_frame 30 unionCopyDemoHeap (.ref 0) (.ref 3) r h2 hrun
      (ofCells_WF _ (by decide)) (ofCells_wrapperFree _ (by decide))
      (by decide) (by decide)).1 0
      (Reaches.base (by simp [HVal.addrs]))
  | error e =>
    have hv : runVal (unionCopyH 30 unionCopyDemoHeap (.ref 0) (.ref 3)) ≠ Option.none := by
      decide
    rw [hrun] at hv
    exact absurd rfl hv

end Dictlib
